import Mathlib

/-!
Shallow embedding of the context-retrieval and request-assembly pipeline of
the `your-bible-app` repository, together with proofs settling the frozen
claims about it.

Strings are modelled as `List Char` (`Str`), which mirrors JavaScript
strings character by character while giving access to the list lemma
library.  Asynchronous external calls (HTTP fetches) are modelled by
oracles `Str → ApiResp`: the oracle gives, for each request string, the
response the external world would produce.  Functions additionally return
the list of external calls they issue, so that claims about caching and
call counts can be stated.
-/

set_option maxHeartbeats 1000000
set_option maxRecDepth 8000

namespace BibleApp

/-- JavaScript strings, modelled as lists of characters. -/
abbrev Str := List Char

/-- The whitespace class used by the JS `\s` regex class and `String.trim`
(ASCII part; the Unicode spaces are irrelevant to this code base). -/
def isJsSpace (c : Char) : Bool :=
  c = ' ' || c = '\t' || c = '\n' || c = '\r' || c = '\x0b' || c = '\x0c'

/-- The character class `[A-Za-z.]` of the book-name part of the range regexes. -/
def isBookChar (c : Char) : Bool :=
  ('A' ≤ c && c ≤ 'Z') || ('a' ≤ c && c ≤ 'z') || c = '.'

/-- The character class `[1-3]` of the optional numeric book prefix. -/
def isRangeDigit (c : Char) : Bool :=
  c = '1' || c = '2' || c = '3'

/-- The character class `\d`. -/
def isDigitChar (c : Char) : Bool :=
  '0' ≤ c && c ≤ '9'

/-- `String.prototype.trim`: drop whitespace from both ends. -/
def trimStr (s : Str) : Str :=
  ((s.dropWhile isJsSpace).reverse.dropWhile isJsSpace).reverse

/-- Decimal digit character for `n < 10`. -/
def digitChar : Nat → Char
  | 0 => '0' | 1 => '1' | 2 => '2' | 3 => '3' | 4 => '4'
  | 5 => '5' | 6 => '6' | 7 => '7' | 8 => '8' | _ => '9'

/-- Fuel-based helper for `natRepr` (structural recursion, so that the
representation reduces definitionally); the fuel is always sufficient. -/
def natReprAux : Nat → Nat → Str
  | 0, _ => []
  | fuel + 1, n =>
    if n < 10 then [digitChar n]
    else natReprAux fuel (n / 10) ++ [digitChar (n % 10)]

/-- Decimal representation of a natural number (JS template-literal
interpolation `${n}` of a nonnegative integer). -/
def natRepr (n : Nat) : Str := natReprAux (n + 1) n

/-- Numeric value of a digit character. -/
def digitVal (c : Char) : Nat := c.toNat - 48

/-- Value of a decimal digit string (the exact inverse of `natRepr`). -/
def natVal (s : Str) : Nat :=
  s.foldl (fun a c => 10 * a + digitVal c) 0

/-- JS `Number(s)` restricted to the strings this module ever feeds it:
all-digit strings convert to their value, everything else is `NaN`
(modelled as `none`). -/
def jsNum (s : Str) : Option Nat :=
  if s ≠ [] ∧ s.all isDigitChar then some (natVal s) else none

/-- The reference string `` `${book} ${chapter}:${verse}` ``. -/
def mkRef (book : Str) (chapter verse : Nat) : Str :=
  book ++ ' ' :: (natRepr chapter ++ ':' :: natRepr verse)

/-! ### The in-memory cache and result maps

The module-level `CACHE: Record<string, string>` is modelled as an
association list; `cacheSet` mirrors JS property assignment (update in
place if present, append otherwise).  Result maps
`Record<string, string | null>` are association lists of optional values
with the same assignment semantics, preserving JS key insertion order. -/

abbrev Cache := List (Str × Str)

def cacheGet : Cache → Str → Option Str
  | [], _ => none
  | p :: rest, k => if p.1 = k then some p.2 else cacheGet rest k

def cacheSet (c : Cache) (k v : Str) : Cache :=
  match c with
  | [] => [(k, v)]
  | p :: rest => if p.1 = k then (k, v) :: rest else p :: cacheSet rest k v

abbrev RMap := List (Str × Option Str)

def mapSet (m : RMap) (k : Str) (v : Option Str) : RMap :=
  match m with
  | [] => [(k, v)]
  | p :: rest => if p.1 = k then (k, v) :: rest else p :: mapSet rest k v

/-! ### `src/lib/bibleApi.ts` — verse fetching

The external `bible-api.com` endpoint is modelled by an oracle
`Oracle : Str → ApiResp` giving the response for each (normalized,
pre-URL-encoding) reference string.  A response body may carry a `text`
field (a string, or absent — a non-string value behaves like an absent
one under the `typeof`-free `body?.text || null` coercion, except that a
present empty string is also coerced to `null`, which the model applies
at the use site) and a `verses` array, of which only the length is used
(a missing/non-array `verses` yields length 0 via the `Array.isArray`
check). -/

structure ApiBody where
  text : Option Str := none
  verses : Option Nat := none
  deriving DecidableEq

inductive ApiResp where
  /-- the `fetch` promise rejected (network error) -/
  | fail
  /-- `res.ok` is false -/
  | notOk
  /-- 2xx response with the given JSON body -/
  | ok (body : ApiBody)
  deriving DecidableEq

abbrev Oracle := Str → ApiResp

/-- The network part of `fetchVerse` (everything after the cache miss):
issue the request, coerce `body?.text || null`, cache non-empty text.
Returns the result and the updated cache. -/
def netFetch (o : Oracle) (c : Cache) (n : Str) : Option Str × Cache :=
  match o n with
  | .fail => (none, c)
  | .notOk => (none, c)
  | .ok body =>
    match body.text with
    | none => (none, c)
    | some s => if s = [] then (none, c) else (some s, cacheSet c n s)

/-- `fetchVerse` from `src/lib/bibleApi.ts`.  Besides the result and the
updated cache it returns the list of external calls issued (`[]` or the
one normalized reference). -/
def fetchVerse (o : Oracle) (c : Cache) (reference : Str) :
    Option Str × Cache × List Str :=
  let n := trimStr reference
  if n = [] then (none, c, [])
  else
    match cacheGet c n with
    | some v =>
      if v = [] then
        let r := netFetch o c n
        (r.1, r.2, [n])
      else (some v, c, [])
    | none =>
      let r := netFetch o c n
      (r.1, r.2, [n])

/-- One step of the `fetchVerses` batch.  The JS callbacks
`async (ref) => { results[normalized] = await fetchVerse(normalized) }`
all run their synchronous prefix — the trim and the cache lookup — before
any fetch response is delivered, so every cache check sees the cache as
it was when the batch `start`ed; the fetches of all misses are issued
during that synchronous phase (in list order), and their responses then
update the cache.  Responses are processed in issue order (the canonical
deterministic schedule; the final mapping is keyed by reference string,
so completion order only affects key insertion order). -/
def fetchVersesGo (o : Oracle) (start : Cache) :
    List Str → RMap → Cache → List Str → RMap × Cache × List Str
  | [], m, c, calls => (m, c, calls)
  | r :: rest, m, c, calls =>
    let n := trimStr r
    if n = [] then fetchVersesGo o start rest (mapSet m n none) c calls
    else
      match cacheGet start n with
      | some v =>
        if v = [] then
          let f := netFetch o c n
          fetchVersesGo o start rest (mapSet m n f.1) f.2 (calls ++ [n])
        else fetchVersesGo o start rest (mapSet m n (some v)) c calls
      | none =>
        let f := netFetch o c n
        fetchVersesGo o start rest (mapSet m n f.1) f.2 (calls ++ [n])

/-- `fetchVerses` from `src/lib/bibleApi.ts`, array-input branch:
trim every entry, drop falsy (empty) ones, then resolve all fetches
concurrently into a mapping keyed by the normalized references. -/
def fetchVerses (o : Oracle) (c : Cache) (references : List Str) :
    RMap × Cache × List Str :=
  let list := (references.map trimStr).filter (fun s => !s.isEmpty)
  fetchVersesGo o c list [] c []

/-! ### The range regexes

`fetchRange` matches its input against the anchored regexes

  same-chapter : `^([1-3]?\s?[A-Za-z.]+)\s+(\d+):(\d+)-(\d+)$`
  cross-chapter: `^([1-3]?\s?[A-Za-z.]+)\s+(\d+):(\d+)-(\d+):(\d+)$`

Both are implemented as deterministic parsers.  Greedy matching with
backtracking collapses to determinism here because every pair of
adjacent sub-patterns uses disjoint character classes (`[A-Za-z.]` vs
`\s` vs `\d` vs the literals `:`/`-`); the only genuine alternatives are
the four expansions of the `[1-3]?\s?` prefix, which are tried in the
regex engine's greedy order. -/

/-- `[A-Za-z.]+\s+`: one or more book characters followed by one or more
whitespace characters; returns (book characters, rest after whitespace). -/
def parseBookCore (cs : Str) : Option (Str × Str) :=
  let letters := cs.takeWhile isBookChar
  if letters = [] then none
  else
    let rest := cs.dropWhile isBookChar
    if rest.takeWhile isJsSpace = [] then none
    else some (letters, rest.dropWhile isJsSpace)

/-- `([1-3]?\s?[A-Za-z.]+)\s+`: the capture group (prefix included) and
the rest after the separating whitespace.  When the leading digit-space
alternative fails, the shorter alternatives fail too (a space is not a
book character, a digit is not a book character), so no further
backtracking is needed. -/
def parseBookPrefix (cs : Str) : Option (Str × Str) :=
  match cs with
  | c0 :: c1 :: rest =>
    if isRangeDigit c0 then
      if isJsSpace c1 then
        (parseBookCore rest).map (fun p => (c0 :: c1 :: p.1, p.2))
      else
        (parseBookCore (c1 :: rest)).map (fun p => (c0 :: p.1, p.2))
    else parseBookCore cs
  | _ => parseBookCore cs

/-- `(\d+)`: a nonempty run of digits and the rest. -/
def parseNum (cs : Str) : Option (Nat × Str) :=
  let ds := cs.takeWhile isDigitChar
  if ds = [] then none else some (natVal ds, cs.dropWhile isDigitChar)

/-- A literal character. -/
def expectChar (c : Char) (cs : Str) : Option Str :=
  match cs with
  | c' :: rest => if c' = c then some rest else none
  | [] => none

/-- `(\d+):(\d+)-(\d+)$` — the tail of the same-chapter regex. -/
def sameTail (cs : Str) : Option (Nat × Nat × Nat) :=
  (parseNum cs).bind fun p1 =>
  (expectChar ':' p1.2).bind fun r1 =>
  (parseNum r1).bind fun p2 =>
  (expectChar '-' p2.2).bind fun r2 =>
  (parseNum r2).bind fun p3 =>
  if p3.2 = [] then some (p1.1, p2.1, p3.1) else none

/-- `(\d+):(\d+)-(\d+):(\d+)$` — the tail of the cross-chapter regex. -/
def crossTail (cs : Str) : Option (Nat × Nat × Nat × Nat) :=
  (parseNum cs).bind fun p1 =>
  (expectChar ':' p1.2).bind fun r1 =>
  (parseNum r1).bind fun p2 =>
  (expectChar '-' p2.2).bind fun r2 =>
  (parseNum r2).bind fun p3 =>
  (expectChar ':' p3.2).bind fun r3 =>
  (parseNum r3).bind fun p4 =>
  if p4.2 = [] then some (p1.1, p2.1, p3.1, p4.1) else none

/-- `input.match(sameChapterRegex)` with the book already `.trim()`ed as
in `sameChapterMatch[1].trim()`: `(book, chapter, start, end)`. -/
def matchSameChapter (input : Str) : Option (Str × Nat × Nat × Nat) :=
  (parseBookPrefix input).bind fun bp =>
  (sameTail bp.2).map fun t => (trimStr bp.1, t.1, t.2.1, t.2.2)

/-- `input.match(crossChapterRegex)` with the book `.trim()`ed:
`(book, chapter1, verse1, chapter2, verse2)`. -/
def matchCrossChapter (input : Str) : Option (Str × Nat × Nat × Nat × Nat) :=
  (parseBookPrefix input).bind fun bp =>
  (crossTail bp.2).map fun t => (trimStr bp.1, t.1, t.2.1, t.2.2.1, t.2.2.2)

/-- The cache key `` `__chapterlen__${ref}` ``. -/
def chapterLenKey (ref : Str) : Str :=
  ('_' :: '_' :: 'c' :: 'h' :: 'a' :: 'p' :: 't' :: 'e' :: 'r' :: 'l' ::
    'e' :: 'n' :: '_' :: '_' :: []) ++ ref

/-- `getChapterLength` (local helper of the cross-chapter branch of
`fetchRange` in the fuller `bibleApi` revision): fetch the whole
chapter, count its `verses` entries, cache positive counts under the
`__chapterlen__` key namespace.  Returns the length (`none` models the
`NaN` a junk cache entry would convert to), the cache and the external
calls issued. -/
def getChapterLength (o : Oracle) (c : Cache) (book : Str) (chapter : Nat) :
    Option Nat × Cache × List Str :=
  let ref := book ++ ' ' :: natRepr chapter
  match cacheGet c (chapterLenKey ref) with
  | some v =>
    if v = [] then getChapterLengthNet o c ref
    else (jsNum v, c, [])
  | none => getChapterLengthNet o c ref
where
  getChapterLengthNet (o : Oracle) (c : Cache) (ref : Str) :
      Option Nat × Cache × List Str :=
    match o ref with
    | .fail => (some 0, c, [ref])
    | .notOk => (some 0, c, [ref])
    | .ok body =>
      let len := body.verses.getD 0
      if len > 0 then (some len, cacheSet c (chapterLenKey ref) (natRepr len), [ref])
      else (some len, c, [ref])

/-- `for (let v = lo; v <= hi; v++) list.push(mkRef book ch v)` where the
upper bound may be `NaN` (no iterations). -/
def verseRun (book : Str) (ch : Nat) (lo : Nat) (hi : Option Nat) : List Str :=
  match hi with
  | none => []
  | some h => (List.range' lo (h + 1 - lo)).map (mkRef book ch)

/-- The middle-chapter loop of the cross-chapter branch: for each chapter
`c1 < c < c2` look up its length (threading cache and calls) and expand
all its verses. -/
def middleChapters (o : Oracle) (book : Str) :
    List Nat → Cache → List Str × Cache × List Str
  | [], c => ([], c, [])
  | ch :: rest, c =>
    let g := getChapterLength o c book ch
    let tail := middleChapters o book rest g.2.1
    (verseRun book ch 1 g.1 ++ tail.1, tail.2.1, g.2.2 ++ tail.2.2)

/-- `fetchRange` from the fuller `bibleApi` revision (the one with the
cross-chapter branch).  `.error ()` models the `TypeError` thrown for a
falsy input.  Returns the result map, the cache and all external calls
issued. -/
def fetchRange (o : Oracle) (c : Cache) (range : Str) :
    Except Unit (RMap × Cache × List Str) :=
  if range = [] then .error ()
  else
    let input := trimStr range
    match matchSameChapter input with
    | some (book, chapter, vstart, vend) =>
      if vstart > vend then
        let s := fetchVerse o c input
        .ok ([(input, s.1)], s.2.1, s.2.2)
      else
        .ok (fetchVerses o c ((List.range' vstart (vend + 1 - vstart)).map (mkRef book chapter)))
    | none =>
      match matchCrossChapter input with
      | some (book, ch1, v1, ch2, v2) =>
        if ch1 > ch2 ∨ (ch1 = ch2 ∧ v1 > v2) then
          let s := fetchVerse o c input
          .ok ([(input, s.1)], s.2.1, s.2.2)
        else
          let g1 := getChapterLength o c book ch1
          let mid := middleChapters o book (List.range' (ch1 + 1) (ch2 - (ch1 + 1))) g1.2.1
          let list := verseRun book ch1 v1 g1.1 ++ mid.1 ++
            (List.range' 1 v2).map (mkRef book ch2)
          let f := fetchVerses o mid.2.1 list
          .ok (f.1, f.2.1, g1.2.2 ++ mid.2.2 ++ f.2.2)
      | none =>
        let s := fetchVerse o c input
        .ok ([(input, s.1)], s.2.1, s.2.2)

/-! ### `src/lib/rag.ts` — the three-tier retrieval pipeline

Each tier's external effect is modelled by the outcome the external world
would deliver for this query; `retrieveRagContext` additionally reports
which of the fallback tiers were actually consulted. -/

/-- A row delivered by the vector tier (`vect.results` entries): a
non-object entry, or an object whose `content`/`text` fields are
`some` exactly when present with a string value (the code only ever
checks `typeof === 'string'`, so a non-string field value is
indistinguishable from an absent one). -/
inductive VectVal where
  | nonObj
  | row (content text : Option Str)
  deriving DecidableEq

/-- Outcome of `querySimilarDocuments(query, 3)`: a rejection, or a
return value whose `results` field is an array (`some rows`) or
falsy/non-array (`none`). -/
inductive VectOutcome where
  | throw
  | ret (results : Option (List VectVal))
  deriving DecidableEq

/-- Outcome of the `supabase...textSearch` call: a rejection, or
`{ data, error }` — `data` an array of rows whose `content` is a string
(`some`) or null/non-string (`none`), or `data` itself null; `error`
truthy or not. -/
inductive FTOutcome where
  | throw
  | ret (data : Option (List (Option Str))) (error : Bool)
  deriving DecidableEq

/-- Outcome of `searchWeb(query, 3)`: a rejection or a list of snippets. -/
inductive WebOutcome where
  | throw
  | ret (snips : List Str)
  deriving DecidableEq

/-- Row normalization of the vector tier: `content` if it is a string,
else `text` if it is a string, else `null`. -/
def normVectRow : VectVal → Option Str
  | .nonObj => none
  | .row content text =>
    match content with
    | some s => some s
    | none => text

/-- Tier 1's usable snippets: normalize rows, keep non-empty trimmed
strings, cap at 3 (the code guards `results.length > 0` first, but an
empty row list yields no snippets either way). -/
def vectSnippets : VectOutcome → List Str
  | .throw => []
  | .ret none => []
  | .ret (some results) =>
    ((results.filterMap normVectRow).filter (fun c => trimStr c ≠ [])).take 3

/-- Tier 2's usable snippets (when no error): rows' `content`, kept when
a non-empty-trimmed string, capped at 3. -/
def ftSnippets (data : Option (List (Option Str))) : List Str :=
  (((data.getD []).filterMap id).filter (fun c => trimStr c ≠ [])).take 3

/-- The result of `retrieveRagContext` plus which tiers were consulted. -/
structure RagTrace where
  result : List Str
  ftInvoked : Bool
  webInvoked : Bool
  deriving DecidableEq

/-- The shared web-fallback block: `try { return await searchWeb(query, 3) }
catch { return [] }`, reached from tier 2's error path, empty path and
exception path. -/
def webFallback (ft : Bool) : WebOutcome → RagTrace
  | .throw => ⟨[], ft, true⟩
  | .ret snips => ⟨snips, ft, true⟩

/-- `retrieveRagContext` from `src/lib/rag.ts`, instrumented with the
tiers that were invoked (tier 1 is always invoked). -/
def retrieveRagContext (vect : VectOutcome) (ft : FTOutcome) (web : WebOutcome) :
    RagTrace :=
  let texts := vectSnippets vect
  if texts ≠ [] then ⟨texts, false, false⟩
  else
    match ft with
    | .throw => webFallback true web
    | .ret data error =>
      if error then webFallback true web
      else
        let snippets := ftSnippets data
        if snippets ≠ [] then ⟨snippets, true, false⟩
        else webFallback true web

/-! ### `src/lib/webSearch.ts` — the Bing web-search client -/

/-- A `webPages.value` entry: a non-object, or an object whose listed
fields are `some` exactly when present with a string value. -/
inductive BingVal where
  | nonObj
  | item (name snippet text url displayUrl : Option Str)
  deriving DecidableEq

/-- Outcome of the HTTP GET to the configured endpoint. -/
inductive WebResp where
  | fail
  | notOk
  /-- 2xx; `pages` is `json.webPages?.value` when it is an array,
  `none` when `webPages` is absent/null or `value` is not an array. -/
  | ok (pages : Option (List BingVal))
  deriving DecidableEq

/-- The two environment settings; `none` = unset, `some []` = set empty
(both falsy). -/
structure WebConfig where
  endpoint : Option Str := none
  key : Option Str := none
  deriving DecidableEq

def isFalsyEnv : Option Str → Bool
  | none => true
  | some s => s.isEmpty

/-- The em-dash separator `' — '`. -/
def emDashSep : Str := " — ".data

/-- Display string of one result item: (title, snippet-or-text,
url-or-displayUrl), trimmed, non-empty parts joined with the separator. -/
def bingItemStr (name snippet text url displayUrl : Option Str) : Str :=
  let title := match name with | some s => trimStr s | none => []
  let snip := match snippet with
    | some s => trimStr s
    | none => match text with | some s => trimStr s | none => []
  let u := match url with
    | some s => trimStr s
    | none => match displayUrl with | some s => trimStr s | none => []
  let parts := [title, snip, u].filter (fun p => p ≠ [])
  List.intercalate emDashSep parts

/-- The result-building loop over `maybePages.slice(0, topK)`. -/
def buildWebResults (vals : List BingVal) : List Str :=
  vals.filterMap fun v =>
    match v with
    | .nonObj => none
    | .item name snippet text url displayUrl =>
      let joined := bingItemStr name snippet text url displayUrl
      if joined ≠ [] ∧ trimStr joined ≠ [] then some joined else none

/-- `searchWeb` from `src/lib/webSearch.ts`.  `.error ()` models the
thrown `Error('query is required')`; every other outcome is a normal
return. -/
def searchWeb (cfg : WebConfig) (o : Str → WebResp) (query : Str) (topK : Nat) :
    Except Unit (List Str) :=
  if query = [] then .error ()
  else if isFalsyEnv cfg.endpoint || isFalsyEnv cfg.key then .ok []
  else
    match o query with
    | .fail => .ok []
    | .notOk => .ok []
    | .ok pages =>
      match pages with
      | none => .ok []
      | some vals => .ok (buildWebResults (vals.take topK))

/-! ### `src/app/chat/routes.ts` — request assembly

The message history built by the `POST` handler (non-dev-mock path).
The verse-lookup stage — range regex match, `fetchRange`/`fetchVerse`
call, and the `Object.entries(map).filter(([, t]) => t != null)`
projection — is abstracted into its output `verseEntries`; an empty list
covers "no reference matched", "the fetch threw" and "all values null"
alike, exactly the cases in which the code inserts nothing. -/

inductive Role where
  | user
  | model
  | system
  deriving DecidableEq

structure ChatMsg where
  role : Role
  parts : Str
  deriving DecidableEq

/-- Roles accepted in the request's `contents` array. -/
inductive ReqRole where
  | user
  | assistant
  | system
  | model
  deriving DecidableEq

structure ReqMsg where
  role : ReqRole
  content : Str
  deriving DecidableEq

/-- `msg.role === 'user' ? 'user' : 'model'`. -/
def collapseRole : ReqRole → Role
  | .user => .user
  | _ => .model

/-- The `SYSTEM_PROMPT` constant of the route. -/
def SYSTEM_PROMPT : Str :=
  ("You are a knowledgeable Bible expert assistant. Your purpose is to answer questions about the Bible, Christian theology, and biblical topics with accuracy and clarity.\n\nWhen answering:\n- Focus on biblical content and interpretation\n- Reference specific Bible verses when relevant (include book, chapter:verse)\n- Be respectful and scholarly in tone\n- If a question is not about the Bible, politely redirect to biblical topics\n- Keep responses concise but informative (under 300 tokens)\n- Provide multiple perspectives when applicable (e.g., different theological viewpoints)").data

/-- The canned model acknowledgement paired with the system prompt. -/
def PREAMBLE_ACK : Str :=
  "I understand. I\x27m ready to help with biblical questions.".data

/-- The guidance message inserted before web-sourced snippets. -/
def WEB_GUIDANCE : Str :=
  ("Note: the following short web-sourced commentary snippets are provided as reference — you may use them to inform your answer and should cite the source where appropriate.").data

/-- `http://` / `https://`. -/
def httpPrefix : Str := "http://".data

def httpsPrefix : Str := "https://".data

/-- Match `https?:\/\/\S+` at the head of `cs` (greedy `s?` first; the
shorter alternative cannot succeed where the longer matched). -/
def matchUrlAt (cs : Str) : Option Str :=
  if httpsPrefix.isPrefixOf cs then
    let body := (cs.drop 8).takeWhile (fun c => !isJsSpace c)
    if body = [] then none else some (httpsPrefix ++ body)
  else if httpPrefix.isPrefixOf cs then
    let body := (cs.drop 7).takeWhile (fun c => !isJsSpace c)
    if body = [] then none else some (httpPrefix ++ body)
  else none

/-- `raw.match(/(https?:\/\/\S+)/)`: first match, scanning left to right. -/
def findUrl : Str → Option Str
  | [] => none
  | c :: rest =>
    match matchUrlAt (c :: rest) with
    | some u => some u
    | none => findUrl rest

/-- `s.replace(pat, '')`: remove the first occurrence of `pat`. -/
def replaceFirst (s pat : Str) : Str :=
  match s with
  | [] => []
  | c :: rest =>
    if pat.isPrefixOf (c :: rest) then (c :: rest).drop pat.length
    else c :: replaceFirst rest pat

/-- Formatting of the `i`-th web snippet: separate a detected URL from
the body, truncate the body to at most 200 characters (ellipsis-marked),
and attribute the source parenthetically. -/
def formatWebSnippet (i : Nat) (raw : Str) : Str :=
  let url? := findUrl raw
  let textOnly := match url? with
    | some u => trimStr (replaceFirst raw u)
    | none => raw
  let short := if textOnly.length > 200 then trimStr (textOnly.take 199) ++ ['…']
    else textOnly
  match url? with
  | some u =>
    "Web context [".data ++ natRepr (i + 1) ++ "]: ".data ++ short ++
      " (source: ".data ++ u ++ [')']
  | none => "Web context [".data ++ natRepr (i + 1) ++ "]: ".data ++ short

/-- A verse message `` `Reference ${ref}: ${text}` ``. -/
def verseMessage (e : Str × Str) : ChatMsg :=
  ⟨.user, "Reference ".data ++ e.1 ++ ": ".data ++ e.2⟩

/-- The base history: the fixed system/model preamble pair when the
conversation is new, otherwise the prior turns with collapsed roles. -/
def baseHistory (contents : List ReqMsg) : List ChatMsg :=
  if contents = [] then
    [⟨.user, SYSTEM_PROMPT⟩, ⟨.model, PREAMBLE_ACK⟩]
  else contents.map (fun m => ⟨collapseRole m.role, m.content⟩)

/-- The context block appended after the base history: RAG snippets as
`Related context` system messages when any exist, otherwise the
web-search fallback block (guidance message plus numbered snippets), or
nothing when the web search fails or returns nothing. -/
def contextBlock (ragSnippets : List Str) (web : WebOutcome) : List ChatMsg :=
  if ragSnippets ≠ [] then
    ragSnippets.map (fun sn => ⟨.system, "Related context: ".data ++ sn⟩)
  else
    match web with
    | .throw => []
    | .ret ws =>
      if ws ≠ [] then
        ⟨.system, WEB_GUIDANCE⟩ :: ws.mapIdx (fun i w => ⟨.system, formatWebSnippet i w⟩)
      else []

/-- The full assembly of the outbound message history
(`routes.ts`, lines building `messages`): base history, then context
messages pushed at the end, then verse messages unshifted at the front,
then the current question pushed last. -/
def assembleMessages (contents : List ReqMsg) (question : Str)
    (ragSnippets : List Str) (web : WebOutcome)
    (verseEntries : List (Str × Str)) : List ChatMsg :=
  let base := baseHistory contents
  let afterRag := base ++ contextBlock ragSnippets web
  let afterVerse :=
    if verseEntries ≠ [] then verseEntries.map verseMessage ++ afterRag
    else afterRag
  afterVerse ++ [⟨.user, question⟩]

/-! ### `src/app/chat/routes.ts` — `extractText`

Arbitrary `RawModelResponse` payloads are modelled as JSON-like values.
`null` also covers `undefined`; `prim` covers the remaining non-string
primitives (numbers, booleans), on which property access yields
`undefined` without throwing.  An object field mapped to a value is
present; absent fields have no entry.  Property access on `null` or
`undefined` throws a TypeError in JS; `getFieldE` models an access the
program performs unconditionally (it can throw), while `getField` is
used only where the receiver has already been checked non-null, or
where a null receiver is short-circuited away by a truthiness guard
before the access. -/

inductive JsVal where
  | null
  | prim
  | str (s : Str)
  | arr (elems : List JsVal)
  | obj (fields : List (Str × JsVal))

/-- JS property access `v[k]` on a receiver that is not
`null`/`undefined`: own string-keyed properties of objects; `undefined`
on arrays (for the names this code reads) and on other primitives. -/
def getField : JsVal → Str → Option JsVal
  | .obj fs, k => (fs.find? (fun p => p.1 = k)).map (fun p => p.2)
  | _, _ => none

/-- JS property access `v[k]` as the program evaluates it: on `null`
or `undefined` it throws a TypeError (`.error ()`), otherwise it yields
the property or `undefined`. -/
def getFieldE (v : JsVal) (k : Str) : Except Unit (Option JsVal) :=
  match v with
  | .null => .error ()
  | _ => .ok (getField v k)

/-- `typeof x === 'string' ? some x : none`. -/
def asString : Option JsVal → Option Str
  | some (.str s) => some s
  | _ => none

/-- `Array.isArray`. -/
def asArray : Option JsVal → Option (List JsVal)
  | some (.arr l) => some l
  | _ => none

/-- `typeof x === 'object' && x !== null`. -/
def isObjLike : JsVal → Bool
  | .arr _ => true
  | .obj _ => true
  | _ => false

def keyText : Str := "text".data

def keyOutputText : Str := "outputText".data

def keyOutput : Str := "output".data

def keyContent : Str := "content".data

def keyResult : Str := "result".data

def keyChoices : Str := "choices".data

def keyMessage : Str := "message".data

/-- The per-entry mapper of the array-`output` branch.  A non-string
entry has its `content` property read unconditionally
(`pRec.content`), so a `null`/`undefined` entry throws; afterwards the
receiver is known non-null, so the `pRec.text` fallback is safe. -/
def extractOutputItem (p : JsVal) : Except Unit Str :=
  match p with
  | .str s => .ok s
  | _ =>
    (getFieldE p keyContent).map fun content? =>
      let viaContent : Option Str :=
        match asArray content? with
        | some (first :: _) =>
          if isObjLike first then asString (getField first keyText) else none
        | _ => none
      match viaContent with
      | some s => s
      | none =>
        match asString (getField p keyText) with
        | some s => s
        | none => []

/-- `output.map(callback)` where the callback may throw: the first
throwing entry aborts the whole map. -/
def mapOutputItems : List JsVal → Except Unit (List Str)
  | [] => .ok []
  | p :: rest =>
    (extractOutputItem p).bind fun s =>
      (mapOutputItems rest).map fun ss => s :: ss

/-- The `choices` branch: `first.message` is read unconditionally, so a
`null`/`undefined` first entry throws; `message.content` is guarded by
the truthiness check `message && ...`, and `first.text` is reached only
with `first` known non-null. -/
def extractChoices (v : JsVal) : Except Unit Str :=
  match asArray (getField v keyChoices) with
  | some (first :: _) =>
    (getFieldE first keyMessage).map fun message? =>
      match
        match message? with
        | some mv => asString (getField mv keyContent)
        | none => none
      with
      | some s => s
      | none =>
        match asString (getField first keyText) with
        | some s => s
        | none => []
  | _ => .ok []

/-- The body of `extractText` after the null and string early returns
(the code works on `r = resp as Record` from here on). -/
def extractTextObj (v : JsVal) : Except Unit Str :=
  match asString (getField v keyText) with
  | some s => .ok s
  | none =>
  match asString (getField v keyOutputText) with
  | some s => .ok s
  | none =>
  match asString (getField v keyOutput) with
  | some s => .ok s
  | none =>
  match asArray (getField v keyOutput) with
  | some items =>
    (mapOutputItems items).map fun parts =>
      List.intercalate ['\n'] (parts.filter (fun s => s ≠ []))
  | none =>
  match asArray (getField v keyResult) with
  | some (res0 :: _) =>
    (getFieldE res0 keyContent).bind fun content? =>
      match
        match content? with
        | some cv => asString (getField cv keyText)
        | none => none
      with
      | some s => .ok s
      | none => extractChoices v
  | _ => extractChoices v

/-- `extractText` from the `POST` handler of `src/app/chat/routes.ts`.
`.error ()` models the TypeError a property access on a
`null`/`undefined` array entry throws (the route's surrounding
`try/catch` then produces the generic 500 response). -/
def extractText (resp : JsVal) : Except Unit Str :=
  match resp with
  | .null => .ok []
  | .str s => .ok s
  | v => extractTextObj v

/-! ### Basic character-class and trim lemmas -/

theorem space_not_digit {c : Char} (h : isJsSpace c = true) : isDigitChar c = false := by
  simp only [isJsSpace, Bool.or_eq_true, decide_eq_true_eq] at h
  rcases h with ((((h | h) | h) | h) | h) | h <;> subst h <;> decide

theorem space_not_book {c : Char} (h : isJsSpace c = true) : isBookChar c = false := by
  simp only [isJsSpace, Bool.or_eq_true, decide_eq_true_eq] at h
  rcases h with ((((h | h) | h) | h) | h) | h <;> subst h <;> decide

theorem space_not_range_digit {c : Char} (h : isJsSpace c = true) : isRangeDigit c = false := by
  simp only [isJsSpace, Bool.or_eq_true, decide_eq_true_eq] at h
  rcases h with ((((h | h) | h) | h) | h) | h <;> subst h <;> decide

theorem digit_not_space {c : Char} (h : isDigitChar c = true) : isJsSpace c = false := by
  cases hs : isJsSpace c with
  | false => rfl
  | true => rw [space_not_digit hs] at h; exact absurd h (by decide)

theorem digit_ne_colon {c : Char} (h : isDigitChar c = true) : c ≠ ':' := by
  intro he; rw [he] at h; exact absurd h (by decide)

theorem dropWhile_eq_self_of_head {p : Char → Bool} {l : Str}
    (h : ∀ a, l.head? = some a → p a = false) : l.dropWhile p = l := by
  cases l with
  | nil => rfl
  | cons a l => simp [List.dropWhile_cons, h a rfl]

theorem head?_trimStr_not_space {s : Str} {a : Char}
    (h : (trimStr s).head? = some a) : isJsSpace a = false := by
  unfold trimStr at h
  rw [List.head?_reverse] at h
  have hsuf := List.dropWhile_suffix (l := (s.dropWhile isJsSpace).reverse) isJsSpace
  obtain ⟨t, ht⟩ := hsuf
  have : ((s.dropWhile isJsSpace).reverse).getLast? = some a := by
    rw [← ht, List.getLast?_append, h]; rfl
  rw [List.getLast?_reverse] at this
  have hd := List.head?_dropWhile_not isJsSpace s
  rw [this] at hd
  exact hd

theorem getLast?_trimStr_not_space {s : Str} {a : Char}
    (h : (trimStr s).getLast? = some a) : isJsSpace a = false := by
  unfold trimStr at h
  rw [List.getLast?_reverse] at h
  have hd := List.head?_dropWhile_not isJsSpace (s.dropWhile isJsSpace).reverse
  rw [h] at hd
  exact hd

theorem trimStr_eq_self {s : Str}
    (h1 : ∀ a, s.head? = some a → isJsSpace a = false)
    (h2 : ∀ a, s.getLast? = some a → isJsSpace a = false) : trimStr s = s := by
  unfold trimStr
  rw [dropWhile_eq_self_of_head h1]
  rw [dropWhile_eq_self_of_head (by intro a ha; rw [List.head?_reverse] at ha; exact h2 a ha)]
  exact List.reverse_reverse s

theorem trimStr_idem (s : Str) : trimStr (trimStr s) = trimStr s :=
  trimStr_eq_self (fun _ h => head?_trimStr_not_space h)
    (fun _ h => getLast?_trimStr_not_space h)

/-! ### Decimal representation lemmas -/

theorem digitChar_isDigit (r : Nat) : isDigitChar (digitChar r) = true := by
  unfold digitChar; split <;> decide

theorem digitVal_digitChar {r : Nat} (h : r < 10) : digitVal (digitChar r) = r := by
  interval_cases r <;> decide

theorem natReprAux_ne_nil : ∀ (fuel n : Nat), n < fuel → natReprAux fuel n ≠ [] := by
  intro fuel
  induction fuel with
  | zero => intro n h; omega
  | succ fuel ih =>
    intro n _
    unfold natReprAux
    split
    · simp
    · rename_i h10
      have := ih (n / 10) (by omega)
      simp

theorem natRepr_ne_nil (n : Nat) : natRepr n ≠ [] :=
  natReprAux_ne_nil (n + 1) n (by omega)

theorem natReprAux_all_digits :
    ∀ (fuel n : Nat), n < fuel → ∀ c ∈ natReprAux fuel n, isDigitChar c = true := by
  intro fuel
  induction fuel with
  | zero => intro n h; omega
  | succ fuel ih =>
    intro n hn c hc
    unfold natReprAux at hc
    split at hc
    · simp at hc
      subst hc
      exact digitChar_isDigit n
    · rename_i h10
      rcases List.mem_append.mp hc with hm | hm
      · exact ih (n / 10) (by omega) c hm
      · simp at hm
        subst hm
        exact digitChar_isDigit (n % 10)

theorem natRepr_all_digits (n : Nat) : ∀ c ∈ natRepr n, isDigitChar c = true :=
  natReprAux_all_digits (n + 1) n (by omega)

theorem natVal_append_digit (ds : Str) (d : Char) :
    natVal (ds ++ [d]) = 10 * natVal ds + digitVal d := by
  unfold natVal
  rw [List.foldl_append]
  rfl

theorem natVal_natReprAux :
    ∀ (fuel n : Nat), n < fuel → natVal (natReprAux fuel n) = n := by
  intro fuel
  induction fuel with
  | zero => intro n h; omega
  | succ fuel ih =>
    intro n hn
    unfold natReprAux
    split
    · rename_i h10
      show natVal [digitChar n] = n
      unfold natVal
      simp [List.foldl]
      exact digitVal_digitChar h10
    · rename_i h10
      rw [natVal_append_digit, ih (n / 10) (by omega),
        digitVal_digitChar (Nat.mod_lt n (by omega))]
      omega

theorem natVal_natRepr (n : Nat) : natVal (natRepr n) = n :=
  natVal_natReprAux (n + 1) n (by omega)

theorem natRepr_inj {a b : Nat} (h : natRepr a = natRepr b) : a = b := by
  have := natVal_natRepr a
  rw [h, natVal_natRepr] at this
  exact this.symm

/-- Unique decomposition at a separator that occurs in neither prefix. -/
theorem sep_split {a a' b b' : Str} {sep : Char}
    (ha : ∀ c ∈ a, c ≠ sep) (ha' : ∀ c ∈ a', c ≠ sep)
    (h : a ++ sep :: b = a' ++ sep :: b') : a = a' ∧ b = b' := by
  induction a generalizing a' with
  | nil =>
    cases a' with
    | nil => simpa using h
    | cons x xs =>
      simp only [List.nil_append, List.cons_append, List.cons.injEq] at h
      exact absurd h.1.symm (ha' x (by simp))
  | cons x xs ih =>
    cases a' with
    | nil =>
      simp only [List.cons_append, List.nil_append, List.cons.injEq] at h
      exact absurd h.1 (ha x (by simp))
    | cons y ys =>
      simp only [List.cons_append, List.cons.injEq] at h
      obtain ⟨hxy, hrest⟩ := h
      have := ih (fun c hc => ha c (by simp [hc])) (fun c hc => ha' c (by simp [hc])) hrest
      exact ⟨by rw [hxy, this.1], this.2⟩

theorem mkRef_inj {book : Str} {c v c' v' : Nat}
    (h : mkRef book c v = mkRef book c' v') : c = c' ∧ v = v' := by
  unfold mkRef at h
  have h2 := List.append_cancel_left h
  have h3 : natRepr c ++ ':' :: natRepr v = natRepr c' ++ ':' :: natRepr v' := by
    injection h2
  have h4 := sep_split
    (fun ch hc => digit_ne_colon (natRepr_all_digits c ch hc))
    (fun ch hc => digit_ne_colon (natRepr_all_digits c' ch hc)) h3
  exact ⟨natRepr_inj h4.1, natRepr_inj h4.2⟩

theorem mkRef_ne_nil {book : Str} (hb : book ≠ []) (c v : Nat) :
    mkRef book c v ≠ [] := by
  unfold mkRef
  cases book with
  | nil => exact absurd rfl hb
  | cons x xs => simp

theorem trimStr_mkRef {book : Str} (hb : book ≠ [])
    (h1 : ∀ a, book.head? = some a → isJsSpace a = false) (c v : Nat) :
    trimStr (mkRef book c v) = mkRef book c v := by
  apply trimStr_eq_self
  · intro a ha
    unfold mkRef at ha
    cases book with
    | nil => exact absurd rfl hb
    | cons x xs =>
      simp only [List.cons_append, List.head?_cons, Option.some.injEq] at ha
      exact ha ▸ h1 x rfl
  · intro a ha
    unfold mkRef at ha
    rw [List.getLast?_append] at ha
    have h5 : (' ' :: (natRepr c ++ ':' :: natRepr v)).getLast? = (natRepr v).getLast? := by
      rw [show (' ' :: (natRepr c ++ ':' :: natRepr v)) =
        ((' ' :: natRepr c) ++ [':']) ++ natRepr v by simp]
      rw [List.getLast?_append]
      rcases hgl : (natRepr v).getLast? with _ | x
      · exact absurd (List.getLast?_eq_none_iff.mp hgl) (natRepr_ne_nil v)
      · simp
    rw [h5] at ha
    rcases hgl : (natRepr v).getLast? with _ | x
    · exact absurd (List.getLast?_eq_none_iff.mp hgl) (natRepr_ne_nil v)
    · rw [hgl] at ha
      simp only [Option.or_some, Option.some.injEq] at ha
      subst ha
      exact digit_not_space
        (natRepr_all_digits v x (List.mem_of_getLast?_eq_some hgl))

/-! ### Cache and result-map lemmas -/

theorem cacheGet_set_self (c : Cache) (k v : Str) :
    cacheGet (cacheSet c k v) k = some v := by
  induction c with
  | nil => simp [cacheSet, cacheGet]
  | cons p rest ih =>
    by_cases hp : p.1 = k
    · rw [show cacheSet (p :: rest) k v = (k, v) :: rest by simp [cacheSet, hp]]
      simp [cacheGet]
    · rw [show cacheSet (p :: rest) k v = p :: cacheSet rest k v by simp [cacheSet, hp]]
      simp [cacheGet, hp, ih]

theorem cacheGet_set_ne (c : Cache) {k k' : Str} (v : Str) (h : k' ≠ k) :
    cacheGet (cacheSet c k v) k' = cacheGet c k' := by
  have hkk : ¬ k = k' := fun he => h he.symm
  induction c with
  | nil =>
    show cacheGet [(k, v)] k' = cacheGet [] k'
    simp [cacheGet, hkk]
  | cons p rest ih =>
    by_cases hp : p.1 = k
    · rw [show cacheSet (p :: rest) k v = (k, v) :: rest by simp [cacheSet, hp]]
      simp [cacheGet, hkk, hp]
    · rw [show cacheSet (p :: rest) k v = p :: cacheSet rest k v by simp [cacheSet, hp]]
      by_cases hk : p.1 = k'
      · simp [cacheGet, hk]
      · simp [cacheGet, hk, ih]

/-- Keys of a `mapSet` update: unchanged when the key is present,
appended otherwise. -/
theorem mapSet_keys (m : RMap) (k : Str) (v : Option Str) :
    (mapSet m k v).map Prod.fst =
      if k ∈ m.map Prod.fst then m.map Prod.fst else m.map Prod.fst ++ [k] := by
  induction m with
  | nil => simp [mapSet]
  | cons p rest ih =>
    by_cases hp : p.1 = k
    · subst hp
      rw [show mapSet (p :: rest) p.1 v = (p.1, v) :: rest by simp [mapSet]]
      simp
    · rw [show mapSet (p :: rest) k v = p :: mapSet rest k v by simp [mapSet, hp]]
      simp only [List.map_cons, ih]
      have hne : ¬ k = p.1 := fun he => hp he.symm
      by_cases hm : k ∈ rest.map Prod.fst
      · simp [hm, hne]
      · simp [hm, hne]

theorem mapSet_not_mem (m : RMap) {k : Str} (v : Option Str)
    (h : k ∉ m.map Prod.fst) : mapSet m k v = m ++ [(k, v)] := by
  induction m with
  | nil => simp [mapSet]
  | cons p rest ih =>
    unfold mapSet
    rw [if_neg (by intro he; exact h (by simp [he]))]
    rw [ih (by intro hm; exact h (by simp [hm]))]
    simp

theorem mapSet_keys_nodup (m : RMap) (k : Str) (v : Option Str)
    (h : (m.map Prod.fst).Nodup) : ((mapSet m k v).map Prod.fst).Nodup := by
  rw [mapSet_keys]
  by_cases hm : k ∈ m.map Prod.fst
  · simpa [hm] using h
  · rw [if_neg hm]
    exact List.Nodup.append h (List.nodup_singleton k) (by simpa using hm)

/-! ### `netFetch` and batch lemmas -/

/-- The verse text the network would deliver for `n` (cache-independent
part of `netFetch`). -/
def netResult (o : Oracle) (n : Str) : Option Str :=
  match o n with
  | .fail => none
  | .notOk => none
  | .ok body =>
    match body.text with
    | none => none
    | some s => if s = [] then none else some s

theorem netFetch_fst (o : Oracle) (c : Cache) (n : Str) :
    (netFetch o c n).1 = netResult o n := by
  cases ho : o n with
  | fail => simp [netFetch, netResult, ho]
  | notOk => simp [netFetch, netResult, ho]
  | ok body =>
    cases ht : body.text with
    | none => simp [netFetch, netResult, ho, ht]
    | some s =>
      by_cases hs : s = []
      · simp [netFetch, netResult, ho, ht, hs]
      · simp [netFetch, netResult, ho, ht, hs]

/-- The value a batch cache-check resolves without a network call:
`some v` for a cache hit with a truthy value. -/
def batchHit (start : Cache) (n : Str) : Option Str :=
  match cacheGet start n with
  | some v => if v = [] then none else some v
  | none => none

/-- The value the batch assigns for a (trimmed, nonempty) reference. -/
def batchVal (o : Oracle) (start : Cache) (n : Str) : Option Str :=
  match batchHit start n with
  | some v => some v
  | none => netResult o n

theorem fetchVersesGo_calls (o : Oracle) (start : Cache) (list : List Str)
    (hl : ∀ r ∈ list, trimStr r = r ∧ r ≠ []) :
    ∀ m c calls, (fetchVersesGo o start list m c calls).2.2 =
      calls ++ list.filter (fun n => (batchHit start n).isNone) := by
  induction list with
  | nil => intro m c calls; simp [fetchVersesGo]
  | cons r rest ih =>
    intro m c calls
    obtain ⟨htrim, hne⟩ := hl r (by simp)
    have ihr := fun m c calls => ih (fun x hx => hl x (by simp [hx])) m c calls
    unfold fetchVersesGo
    rw [htrim, if_neg hne]
    split
    · rename_i v heq
      by_cases hv : v = []
      · rw [if_pos hv]
        simp only [ihr]
        simp [batchHit, heq, hv, List.filter_cons]
      · rw [if_neg hv]
        simp only [ihr]
        simp [batchHit, heq, hv, List.filter_cons]
    · rename_i heq
      simp only [ihr]
      simp [batchHit, heq, List.filter_cons]

theorem fetchVersesGo_map (o : Oracle) (start : Cache) (list : List Str)
    (hl : ∀ r ∈ list, trimStr r = r ∧ r ≠ []) :
    ∀ m c calls, (fetchVersesGo o start list m c calls).1 =
      list.foldl (fun acc r => mapSet acc r (batchVal o start r)) m := by
  induction list with
  | nil => intro m c calls; simp [fetchVersesGo]
  | cons r rest ih =>
    intro m c calls
    obtain ⟨htrim, hne⟩ := hl r (by simp)
    have ihr := fun m c calls => ih (fun x hx => hl x (by simp [hx])) m c calls
    unfold fetchVersesGo
    rw [htrim, if_neg hne]
    split
    · rename_i v heq
      by_cases hv : v = []
      · rw [if_pos hv]
        simp only [ihr, netFetch_fst]
        simp [batchVal, batchHit, heq, hv]
      · rw [if_neg hv]
        simp only [ihr]
        simp [batchVal, batchHit, heq, hv]
    · rename_i heq
      simp only [ihr, netFetch_fst]
      simp [batchVal, batchHit, heq]

theorem foldl_mapSet_nodup (f : Str → Option Str) (list : List Str)
    (hnd : list.Nodup) :
    ∀ m : RMap, (∀ r ∈ list, r ∉ m.map Prod.fst) →
      list.foldl (fun acc r => mapSet acc r (f r)) m =
        m ++ list.map (fun r => (r, f r)) := by
  induction list with
  | nil => intro m _; simp
  | cons r rest ih =>
    intro m hdisj
    simp only [List.foldl_cons]
    rw [mapSet_not_mem m (f r) (hdisj r (by simp))]
    rw [ih hnd.of_cons (m ++ [(r, f r)]) ?_]
    · simp
    · intro x hx
      simp only [List.map_append, List.mem_append, List.map_cons]
      rintro (hm | hm)
      · exact hdisj x (by simp [hx]) hm
      · simp at hm
        rw [hm] at hx
        exact (List.nodup_cons.mp hnd).1 hx

/-- The complete characterization of `fetchVerses` on a list of trimmed,
nonempty, duplicate-free references: the result map lists exactly those
references in order with their batch values, and the external calls are
exactly the cache misses. -/
theorem fetchVerses_spec (o : Oracle) (c : Cache) (refs : List Str)
    (hl : ∀ r ∈ refs, trimStr r = r ∧ r ≠ []) (hnd : refs.Nodup) :
    (fetchVerses o c refs).1 = refs.map (fun r => (r, batchVal o c r)) ∧
    (fetchVerses o c refs).2.2 = refs.filter (fun n => (batchHit c n).isNone) := by
  unfold fetchVerses
  have hlist : (refs.map trimStr).filter (fun s => !s.isEmpty) = refs := by
    rw [show refs.map trimStr = refs by
      rw [List.map_congr_left (fun r hr => (hl r hr).1)]
      exact List.map_id refs]
    exact List.filter_eq_self.mpr (fun r hr => by
      simpa using (hl r hr).2)
  rw [hlist]
  constructor
  · rw [fetchVersesGo_map o c refs hl]
    rw [foldl_mapSet_nodup _ refs hnd [] (by simp)]
    simp
  · rw [fetchVersesGo_calls o c refs hl]
    simp

theorem netResult_ne_nil {o : Oracle} {n s : Str} (h : netResult o n = some s) :
    s ≠ [] := by
  unfold netResult at h
  split at h
  · exact absurd h (by simp)
  · exact absurd h (by simp)
  · split at h
    · exact absurd h (by simp)
    · split at h
      · exact absurd h (by simp)
      · rename_i hx
        simp only [Option.some.injEq] at h
        exact h ▸ hx

theorem netFetch_snd (o : Oracle) (c : Cache) (n : Str) :
    (netFetch o c n).2 =
      match netResult o n with
      | some s => cacheSet c n s
      | none => c := by
  cases ho : o n with
  | fail => simp [netFetch, netResult, ho]
  | notOk => simp [netFetch, netResult, ho]
  | ok body =>
    cases ht : body.text with
    | none => simp [netFetch, netResult, ho, ht]
    | some s =>
      by_cases hs : s = []
      · simp [netFetch, netResult, ho, ht, hs]
      · simp [netFetch, netResult, ho, ht, hs]

/-- A successful `fetchVerse` leaves its (nonempty) text in the cache
under the normalized key. -/
theorem fetchVerse_some_cached {o : Oracle} {c : Cache} {r s : Str}
    {c' : Cache} {calls : List Str}
    (h : fetchVerse o c r = (some s, c', calls)) :
    cacheGet c' (trimStr r) = some s ∧ s ≠ [] := by
  simp only [fetchVerse] at h
  split at h
  · simp at h
  · split at h
    · rename_i v hcg
      split at h
      · simp only [netFetch_fst, netFetch_snd, Prod.mk.injEq] at h
        obtain ⟨h1, h2, _⟩ := h
        simp only [h1] at h2
        constructor
        · rw [← h2]; exact cacheGet_set_self c (trimStr r) s
        · exact netResult_ne_nil h1
      · rename_i hv
        simp only [Prod.mk.injEq, Option.some.injEq] at h
        obtain ⟨h1, h2, _⟩ := h
        constructor
        · rw [← h2, hcg, h1]
        · rw [← h1]; exact hv
    · simp only [netFetch_fst, netFetch_snd, Prod.mk.injEq] at h
      obtain ⟨h1, h2, _⟩ := h
      simp only [h1] at h2
      constructor
      · rw [← h2]; exact cacheGet_set_self c (trimStr r) s
      · exact netResult_ne_nil h1

/-- A repeated `fetchVerse` of a reference whose first fetch succeeded
returns the cached text and issues no external call. -/
theorem fetchVerse_repeat {o : Oracle} {c : Cache} {r s : Str}
    {c' : Cache} {calls : List Str}
    (h : fetchVerse o c r = (some s, c', calls)) :
    fetchVerse o c' r = (some s, c', []) := by
  obtain ⟨hcg, hs⟩ := fetchVerse_some_cached h
  have hn : trimStr r ≠ [] := by
    intro he
    simp only [fetchVerse] at h
    rw [if_pos he] at h
    simp at h
  simp only [fetchVerse]
  rw [if_neg hn, hcg]
  simp [hs]

/-! ### Facts about the regex matchers -/

theorem parseBookCore_facts {cs g rest : Str}
    (h : parseBookCore cs = some (g, rest)) :
    g ≠ [] ∧ (∀ a, g.head? = some a → isBookChar a = true) ∧
      (∀ a, g.getLast? = some a → isBookChar a = true) := by
  simp only [parseBookCore] at h
  split at h
  · exact absurd h (by simp)
  · rename_i hne
    split at h
    · exact absurd h (by simp)
    · simp only [Option.some.injEq, Prod.mk.injEq] at h
      obtain ⟨hg, _⟩ := h
      subst hg
      refine ⟨hne, ?_, ?_⟩
      · intro a ha
        exact List.mem_takeWhile_imp (List.mem_of_mem_head? ha)
      · intro a ha
        exact List.mem_takeWhile_imp (List.mem_of_getLast?_eq_some ha)

theorem parseBookPrefix_facts {cs g rest : Str}
    (h : parseBookPrefix cs = some (g, rest)) :
    g ≠ [] ∧ (∀ a, g.head? = some a → isJsSpace a = false) ∧
      (∀ a, g.getLast? = some a → isJsSpace a = false) := by
  have book_not_space : ∀ {a : Char}, isBookChar a = true → isJsSpace a = false := by
    intro a hb
    cases hs : isJsSpace a with
    | false => rfl
    | true => rw [space_not_book hs] at hb; exact absurd hb (by decide)
  have range_not_space : ∀ {a : Char}, isRangeDigit a = true → isJsSpace a = false := by
    intro a hb
    cases hs : isJsSpace a with
    | false => rfl
    | true => rw [space_not_range_digit hs] at hb; exact absurd hb (by decide)
  have last_cons₂ : ∀ (x y : Char) (l : Str), l ≠ [] →
      (x :: y :: l).getLast? = l.getLast? := by
    intro x y l hl
    rw [show x :: y :: l = [x, y] ++ l by simp, List.getLast?_append]
    rcases hgl : l.getLast? with _ | a
    · exact absurd (List.getLast?_eq_none_iff.mp hgl) hl
    · simp
  have last_cons₁ : ∀ (x : Char) (l : Str), l ≠ [] →
      (x :: l).getLast? = l.getLast? := by
    intro x l hl
    rw [show x :: l = [x] ++ l by simp, List.getLast?_append]
    rcases hgl : l.getLast? with _ | a
    · exact absurd (List.getLast?_eq_none_iff.mp hgl) hl
    · simp
  unfold parseBookPrefix at h
  split at h
  · rename_i c0 c1 rest0
    split at h
    · rename_i hc0
      split at h
      · rename_i hc1
        rcases hcore : parseBookCore rest0 with _ | ⟨letters, r⟩
        · rw [hcore] at h; exact absurd h (by simp)
        · rw [hcore] at h
          simp only [Option.map_some', Option.some.injEq, Prod.mk.injEq] at h
          obtain ⟨hg, _⟩ := h
          obtain ⟨hne, _, hlast⟩ := parseBookCore_facts hcore
          subst hg
          refine ⟨by simp, ?_, ?_⟩
          · intro a ha
            simp only [List.head?_cons, Option.some.injEq] at ha
            exact ha ▸ range_not_space hc0
          · intro a ha
            rw [last_cons₂ c0 c1 letters hne] at ha
            exact book_not_space (hlast a ha)
      · rcases hcore : parseBookCore (c1 :: rest0) with _ | ⟨letters, r⟩
        · rw [hcore] at h; exact absurd h (by simp)
        · rw [hcore] at h
          simp only [Option.map_some', Option.some.injEq, Prod.mk.injEq] at h
          obtain ⟨hg, _⟩ := h
          obtain ⟨hne, _, hlast⟩ := parseBookCore_facts hcore
          subst hg
          refine ⟨by simp, ?_, ?_⟩
          · intro a ha
            simp only [List.head?_cons, Option.some.injEq] at ha
            exact ha ▸ range_not_space hc0
          · intro a ha
            rw [last_cons₁ c0 letters hne] at ha
            exact book_not_space (hlast a ha)
    · obtain ⟨hne, hhead, hlast⟩ := parseBookCore_facts h
      exact ⟨hne, fun a ha => book_not_space (hhead a ha),
        fun a ha => book_not_space (hlast a ha)⟩
  · obtain ⟨hne, hhead, hlast⟩ := parseBookCore_facts h
    exact ⟨hne, fun a ha => book_not_space (hhead a ha),
      fun a ha => book_not_space (hlast a ha)⟩

/-- The book captured by either range matcher is nonempty, starts with a
non-space character, and is `trim`-invariant. -/
theorem match_book_facts {input g rest : Str}
    (h : parseBookPrefix input = some (g, rest)) :
    trimStr g = g ∧ g ≠ [] ∧ (∀ a, g.head? = some a → isJsSpace a = false) := by
  obtain ⟨hne, hhead, hlast⟩ := parseBookPrefix_facts h
  exact ⟨trimStr_eq_self hhead hlast, hne, hhead⟩

/-- When the cross-chapter tail matches, the same-chapter tail cannot:
the latter requires the string to end after the third number, but the
cross tail continues with `:`. -/
theorem sameTail_none_of_crossTail {cs : Str} {t : Nat × Nat × Nat × Nat}
    (h : crossTail cs = some t) : sameTail cs = none := by
  unfold crossTail at h
  unfold sameTail
  rcases h1 : parseNum cs with _ | p1
  · rw [h1] at h; exact absurd h (by simp)
  · rw [h1] at h
    simp only [Option.some_bind] at h ⊢
    rcases h2 : expectChar ':' p1.2 with _ | r1
    · rw [h2] at h; exact absurd h (by simp)
    · rw [h2] at h
      simp only [Option.some_bind] at h ⊢
      rcases h3 : parseNum r1 with _ | p2
      · rw [h3] at h; exact absurd h (by simp)
      · rw [h3] at h
        simp only [Option.some_bind] at h ⊢
        rcases h4 : expectChar '-' p2.2 with _ | r2
        · rw [h4] at h; exact absurd h (by simp)
        · rw [h4] at h
          simp only [Option.some_bind] at h ⊢
          rcases h5 : parseNum r2 with _ | p3
          · rw [h5] at h; exact absurd h (by simp)
          · rw [h5] at h
            simp only [Option.some_bind] at h ⊢
            rcases h6 : expectChar ':' p3.2 with _ | r3
            · rw [h6] at h; exact absurd h (by simp)
            · have : p3.2 ≠ [] := by
                intro he
                unfold expectChar at h6
                rw [he] at h6
                exact absurd h6 (by simp)
              rw [if_neg this]

theorem matchSame_none_of_matchCross {input : Str}
    {t : Str × Nat × Nat × Nat × Nat}
    (h : matchCrossChapter input = some t) : matchSameChapter input = none := by
  unfold matchCrossChapter at h
  unfold matchSameChapter
  rcases hbp : parseBookPrefix input with _ | bp
  · rw [hbp] at h; exact absurd h (by simp)
  · rw [hbp] at h
    simp only [Option.some_bind] at h ⊢
    rcases hct : crossTail bp.2 with _ | ct
    · rw [hct] at h; exact absurd h (by simp)
    · rw [sameTail_none_of_crossTail hct]
      rfl

/-! ### Chapter-length lemmas -/

/-- The chapter-length cache key of a chapter. -/
def chKey (book : Str) (ch : Nat) : Str :=
  chapterLenKey (book ++ ' ' :: natRepr ch)

theorem chKey_inj {book : Str} {ch ch' : Nat} (h : chKey book ch = chKey book ch') :
    ch = ch' := by
  unfold chKey chapterLenKey at h
  have h1 := List.append_cancel_left h
  have h2 := List.append_cancel_left h1
  exact natRepr_inj (List.cons.inj h2).2

theorem getChapterLength_cache_other (o : Oracle) (c : Cache) (book : Str)
    (ch : Nat) {k : Str} (hk : k ≠ chKey book ch) :
    cacheGet (getChapterLength o c book ch).2.1 k = cacheGet c k := by
  have net : ∀ c', cacheGet (getChapterLength.getChapterLengthNet o c'
      (book ++ ' ' :: natRepr ch)).2.1 k = cacheGet c' k := by
    intro c'
    unfold getChapterLength.getChapterLengthNet
    cases ho : o (book ++ ' ' :: natRepr ch) with
    | fail => rfl
    | notOk => rfl
    | ok body =>
      by_cases hl : body.verses.getD 0 > 0
      · simp only [hl, if_pos]
        exact cacheGet_set_ne c' (natRepr (body.verses.getD 0)) hk
      · simp only [if_neg hl]
  simp only [getChapterLength]
  split
  · rename_i v hcg
    by_cases hv : v = []
    · rw [if_pos hv]; exact net c
    · rw [if_neg hv]
  · exact net c

theorem getChapterLength_fst_congr (o : Oracle) {c c' : Cache} (book : Str)
    (ch : Nat) (h : cacheGet c' (chKey book ch) = cacheGet c (chKey book ch)) :
    (getChapterLength o c' book ch).1 = (getChapterLength o c book ch).1 := by
  have net : ∀ c₁ c₂, (getChapterLength.getChapterLengthNet o c₁
      (book ++ ' ' :: natRepr ch)).1 =
      (getChapterLength.getChapterLengthNet o c₂ (book ++ ' ' :: natRepr ch)).1 := by
    intro c₁ c₂
    unfold getChapterLength.getChapterLengthNet
    cases ho : o (book ++ ' ' :: natRepr ch) with
    | fail => rfl
    | notOk => rfl
    | ok body =>
      by_cases hl : body.verses.getD 0 > 0
      · simp only [hl, if_pos]
      · simp only [if_neg hl]
  simp only [getChapterLength]
  rw [show chapterLenKey (book ++ ' ' :: natRepr ch) = chKey book ch from rfl]
  rw [h]
  split
  · rename_i v hcg
    by_cases hv : v = []
    · rw [if_pos hv, if_pos hv]; exact net c' c
    · rw [if_neg hv, if_neg hv]
  · exact net c' c

theorem middleChapters_fst (o : Oracle) (book : Str) (chs : List Nat)
    (hnd : chs.Nodup) :
    ∀ c c₀ : Cache,
      (∀ ch ∈ chs, cacheGet c (chKey book ch) = cacheGet c₀ (chKey book ch)) →
      (middleChapters o book chs c).1 =
        chs.flatMap (fun ch => verseRun book ch 1 ((getChapterLength o c₀ book ch).1)) := by
  induction chs with
  | nil => intro c c₀ _; simp [middleChapters]
  | cons ch rest ih =>
    intro c c₀ h
    unfold middleChapters
    simp only [List.flatMap_cons]
    have h1 : (getChapterLength o c book ch).1 = (getChapterLength o c₀ book ch).1 :=
      getChapterLength_fst_congr o book ch (h ch (by simp))
    rw [h1]
    congr 1
    apply ih hnd.of_cons
    intro ch' hch'
    have hne : ch' ≠ ch := by
      intro he
      exact (List.nodup_cons.mp hnd).1 (he ▸ hch')
    rw [getChapterLength_cache_other o c book ch (fun he => hne (chKey_inj he))]
    exact h ch' (by simp [hch'])

/-! ### Expansion-list lemmas -/

theorem mkRef_injective (book : Str) (ch : Nat) :
    Function.Injective (mkRef book ch) := by
  intro v v' h
  exact (mkRef_inj h).2

theorem verseRun_nodup (book : Str) (ch lo : Nat) (hi : Option Nat) :
    (verseRun book ch lo hi).Nodup := by
  cases hi with
  | none => exact List.nodup_nil
  | some h => exact (List.nodup_range' _ _).map (mkRef_injective book ch)

theorem mem_verseRun {book : Str} {ch lo : Nat} {hi : Option Nat} {x : Str}
    (h : x ∈ verseRun book ch lo hi) : ∃ v, x = mkRef book ch v := by
  cases hi with
  | none => exact absurd h (by simp [verseRun])
  | some hh =>
    obtain ⟨v, _, hv⟩ := List.mem_map.mp h
    exact ⟨v, hv.symm⟩

theorem crossExpansion_nodup (book : Str) (ch1 v1 ch2 v2 : Nat) (h12 : ch1 < ch2)
    (L1 : Option Nat) (lens : Nat → Option Nat) :
    (verseRun book ch1 v1 L1 ++
      (List.range' (ch1 + 1) (ch2 - (ch1 + 1))).flatMap
        (fun ch => verseRun book ch 1 (lens ch)) ++
      (List.range' 1 v2).map (mkRef book ch2)).Nodup := by
  have hmemmid : ∀ {x : Str},
      x ∈ (List.range' (ch1 + 1) (ch2 - (ch1 + 1))).flatMap
        (fun ch => verseRun book ch 1 (lens ch)) →
      ∃ ch v, x = mkRef book ch v ∧ ch1 + 1 ≤ ch ∧ ch < ch2 := by
    intro x hx
    obtain ⟨ch, hch, hxin⟩ := List.mem_flatMap.mp hx
    obtain ⟨hlo, hhi⟩ := List.mem_range'_1.mp hch
    obtain ⟨v, hv⟩ := mem_verseRun hxin
    exact ⟨ch, v, hv, hlo, by omega⟩
  have nmid : ((List.range' (ch1 + 1) (ch2 - (ch1 + 1))).flatMap
      (fun ch => verseRun book ch 1 (lens ch))).Nodup := by
    rw [List.nodup_flatMap]
    refine ⟨fun ch _ => verseRun_nodup book ch 1 (lens ch), ?_⟩
    apply List.Pairwise.imp ?_ (List.nodup_range' _ _)
    intro a b hab x hxa hxb
    obtain ⟨va, hva⟩ := mem_verseRun hxa
    obtain ⟨vb, hvb⟩ := mem_verseRun hxb
    exact hab (mkRef_inj (hva.symm.trans hvb)).1
  have disj1mid : (verseRun book ch1 v1 L1).Disjoint
      ((List.range' (ch1 + 1) (ch2 - (ch1 + 1))).flatMap
        (fun ch => verseRun book ch 1 (lens ch))) := by
    intro x hx1 hx2
    obtain ⟨v, hv⟩ := mem_verseRun hx1
    obtain ⟨ch, v', hv', hlo, _⟩ := hmemmid hx2
    have := (mkRef_inj (hv.symm.trans hv')).1
    omega
  have n3 : ((List.range' 1 v2).map (mkRef book ch2)).Nodup :=
    (List.nodup_range' _ _).map (mkRef_injective book ch2)
  have disj13 : (verseRun book ch1 v1 L1 ++
      (List.range' (ch1 + 1) (ch2 - (ch1 + 1))).flatMap
        (fun ch => verseRun book ch 1 (lens ch))).Disjoint
      ((List.range' 1 v2).map (mkRef book ch2)) := by
    intro x hx1 hx3
    obtain ⟨v', _, hv'⟩ := List.mem_map.mp hx3
    rcases List.mem_append.mp hx1 with hxa | hxb
    · obtain ⟨v, hv⟩ := mem_verseRun hxa
      have := (mkRef_inj (hv.symm.trans hv'.symm)).1
      omega
    · obtain ⟨ch, v, hv, _, hhi⟩ := hmemmid hxb
      have := (mkRef_inj (hv.symm.trans hv'.symm)).1
      omega
  exact List.Nodup.append
    (List.Nodup.append (verseRun_nodup book ch1 v1 L1) nmid disj1mid) n3 disj13

theorem matchSame_book {input book : Str} {ch v1 v2 : Nat}
    (h : matchSameChapter input = some (book, ch, v1, v2)) :
    book ≠ [] ∧ ∀ a, book.head? = some a → isJsSpace a = false := by
  unfold matchSameChapter at h
  rcases hbp : parseBookPrefix input with _ | bp
  · rw [hbp] at h; exact absurd h (by simp)
  · rw [hbp] at h
    simp only [Option.some_bind] at h
    rcases hst : sameTail bp.2 with _ | t
    · rw [hst] at h; exact absurd h (by simp)
    · rw [hst] at h
      simp only [Option.map_some', Option.some.injEq, Prod.mk.injEq] at h
      obtain ⟨hb, _⟩ := h
      obtain ⟨htrim, hne, hhead⟩ := match_book_facts hbp
      rw [← hb, htrim]
      exact ⟨hne, hhead⟩

theorem matchCross_book {input book : Str} {ch1 v1 ch2 v2 : Nat}
    (h : matchCrossChapter input = some (book, ch1, v1, ch2, v2)) :
    book ≠ [] ∧ ∀ a, book.head? = some a → isJsSpace a = false := by
  unfold matchCrossChapter at h
  rcases hbp : parseBookPrefix input with _ | bp
  · rw [hbp] at h; exact absurd h (by simp)
  · rw [hbp] at h
    simp only [Option.some_bind] at h
    rcases hst : crossTail bp.2 with _ | t
    · rw [hst] at h; exact absurd h (by simp)
    · rw [hst] at h
      simp only [Option.map_some', Option.some.injEq, Prod.mk.injEq] at h
      obtain ⟨hb, _⟩ := h
      obtain ⟨htrim, hne, hhead⟩ := match_book_facts hbp
      rw [← hb, htrim]
      exact ⟨hne, hhead⟩

/-! ### `fetchRange` branch characterizations -/

/-- The same-chapter expansion `C:V1 .. C:V2`. -/
def sameExpansion (book : Str) (chapter vstart vend : Nat) : List Str :=
  (List.range' vstart (vend + 1 - vstart)).map (mkRef book chapter)

/-- The cross-chapter expansion: the tail of the start chapter (up to its
looked-up length), every verse of every strictly intervening chapter (per
its looked-up length), and verses `1 .. V2` of the end chapter. -/
def crossExpansion (o : Oracle) (c : Cache) (book : Str)
    (ch1 v1 ch2 v2 : Nat) : List Str :=
  verseRun book ch1 v1 (getChapterLength o c book ch1).1 ++
  (List.range' (ch1 + 1) (ch2 - (ch1 + 1))).flatMap
    (fun ch => verseRun book ch 1 (getChapterLength o c book ch).1) ++
  (List.range' 1 v2).map (mkRef book ch2)

theorem sameExpansion_ok {book : Str} (hbne : book ≠ [])
    (hbhead : ∀ a, book.head? = some a → isJsSpace a = false)
    (chapter vstart vend : Nat) :
    ∀ r ∈ sameExpansion book chapter vstart vend, trimStr r = r ∧ r ≠ [] := by
  intro r hr
  obtain ⟨v, _, hv⟩ := List.mem_map.mp hr
  rw [← hv]
  exact ⟨trimStr_mkRef hbne hbhead chapter v, mkRef_ne_nil hbne chapter v⟩

theorem fetchRange_same_spec (o : Oracle) (c : Cache) (range : Str)
    {book : Str} {chapter vstart vend : Nat}
    (hrange : range ≠ [])
    (hmatch : matchSameChapter (trimStr range) = some (book, chapter, vstart, vend))
    (hle : vstart ≤ vend) :
    ∃ cc, fetchRange o c range = .ok
      ((sameExpansion book chapter vstart vend).map (fun r => (r, batchVal o c r)),
        cc,
        (sameExpansion book chapter vstart vend).filter
          (fun n => (batchHit c n).isNone)) := by
  obtain ⟨hbne, hbhead⟩ := matchSame_book hmatch
  have hl := sameExpansion_ok hbne hbhead chapter vstart vend
  have hnd : (sameExpansion book chapter vstart vend).Nodup :=
    (List.nodup_range' _ _).map (mkRef_injective book chapter)
  obtain ⟨hm, hcalls⟩ := fetchVerses_spec o c _ hl hnd
  refine ⟨(fetchVerses o c (sameExpansion book chapter vstart vend)).2.1, ?_⟩
  simp only [fetchRange]
  rw [if_neg hrange]
  simp only [hmatch]
  rw [if_neg (show ¬ vstart > vend by omega)]
  rw [show (List.range' vstart (vend + 1 - vstart)).map (mkRef book chapter) =
    sameExpansion book chapter vstart vend from rfl]
  rw [← hm, ← hcalls]

theorem fetchRange_cross_spec (o : Oracle) (c : Cache) (range : Str)
    {book : Str} {ch1 v1 ch2 v2 : Nat}
    (hrange : range ≠ [])
    (hmatch : matchCrossChapter (trimStr range) = some (book, ch1, v1, ch2, v2))
    (h12 : ch1 < ch2) :
    ∃ startC cc, fetchRange o c range = .ok
      ((crossExpansion o c book ch1 v1 ch2 v2).map
          (fun r => (r, batchVal o startC r)),
        cc,
        (getChapterLength o c book ch1).2.2 ++
          (middleChapters o book (List.range' (ch1 + 1) (ch2 - (ch1 + 1)))
            (getChapterLength o c book ch1).2.1).2.2 ++
          (crossExpansion o c book ch1 v1 ch2 v2).filter
            (fun n => (batchHit startC n).isNone)) := by
  obtain ⟨hbne, hbhead⟩ := matchCross_book hmatch
  have hmid : (middleChapters o book (List.range' (ch1 + 1) (ch2 - (ch1 + 1)))
      (getChapterLength o c book ch1).2.1).1 =
      (List.range' (ch1 + 1) (ch2 - (ch1 + 1))).flatMap
        (fun ch => verseRun book ch 1 ((getChapterLength o c book ch).1)) := by
    apply middleChapters_fst o book _ (List.nodup_range' _ _)
    intro ch hch
    obtain ⟨hlo, _⟩ := List.mem_range'_1.mp hch
    apply getChapterLength_cache_other
    intro he
    have := chKey_inj he
    omega
  have hlexp : ∀ r ∈ crossExpansion o c book ch1 v1 ch2 v2,
      trimStr r = r ∧ r ≠ [] := by
    intro r hr
    unfold crossExpansion at hr
    have : ∃ ch v, r = mkRef book ch v := by
      rcases List.mem_append.mp hr with h1 | h3
      · rcases List.mem_append.mp h1 with h1a | h1b
        · obtain ⟨v, hv⟩ := mem_verseRun h1a
          exact ⟨ch1, v, hv⟩
        · obtain ⟨ch, hch, hin⟩ := List.mem_flatMap.mp h1b
          obtain ⟨v, hv⟩ := mem_verseRun hin
          exact ⟨ch, v, hv⟩
      · obtain ⟨v, _, hv⟩ := List.mem_map.mp h3
        exact ⟨ch2, v, hv.symm⟩
    obtain ⟨ch, v, hv⟩ := this
    rw [hv]
    exact ⟨trimStr_mkRef hbne hbhead ch v, mkRef_ne_nil hbne ch v⟩
  have hnd : (crossExpansion o c book ch1 v1 ch2 v2).Nodup :=
    crossExpansion_nodup book ch1 v1 ch2 v2 h12 _ _
  set startC := (middleChapters o book (List.range' (ch1 + 1) (ch2 - (ch1 + 1)))
    (getChapterLength o c book ch1).2.1).2.1 with hstartC
  obtain ⟨hm, hcalls⟩ := fetchVerses_spec o startC _ hlexp hnd
  refine ⟨startC, (fetchVerses o startC (crossExpansion o c book ch1 v1 ch2 v2)).2.1, ?_⟩
  simp only [fetchRange]
  rw [if_neg hrange]
  simp only [matchSame_none_of_matchCross hmatch]
  simp only [hmatch]
  rw [if_neg (show ¬ (ch1 > ch2 ∨ (ch1 = ch2 ∧ v1 > v2)) by omega)]
  rw [show verseRun book ch1 v1 (getChapterLength o c book ch1).1 ++
    (middleChapters o book (List.range' (ch1 + 1) (ch2 - (ch1 + 1)))
      (getChapterLength o c book ch1).2.1).1 ++
    (List.range' 1 v2).map (mkRef book ch2) =
    crossExpansion o c book ch1 v1 ch2 v2 by rw [hmid]; rfl]
  rw [← hstartC, ← hm, ← hcalls]

/-! ### Helper definitions used by the claim theorems -/

/-- The snippets delivered to the caller of the web tier (`[]` when the
web search itself rejects, via the innermost `catch`). -/
def webResult : WebOutcome → List Str
  | .throw => []
  | .ret l => l

/-- "The full-text tier yielded nothing usable": it threw, returned an
error, or returned no non-empty rows. -/
def ftYieldsNothing : FTOutcome → Prop
  | .throw => True
  | .ret data error => error = true ∨ ftSnippets data = []

/-- An oracle whose endpoint always answers with a non-success status. -/
def oracleNotOk : Oracle := fun _ => .notOk

/-- An oracle that always returns the same verse text. -/
def oracleConst : Oracle := fun _ =>
  .ok { text := some ("For God so loved the world".data), verses := some 3 }

/-- The nested-credential response of C3:
`{apiClient: {clientOptions: {auth: {apiKey: "X"}}}}`. -/
def secretResp : JsVal :=
  .obj [("apiClient".data, .obj [("clientOptions".data,
    .obj [("auth".data, .obj [("apiKey".data, .str "X".data)])])])]

/-! ### The claim theorems -/

theorem getFieldE_ne_null {v : JsVal} (h : v ≠ .null) (k : Str) :
    getFieldE v k = .ok (getField v k) := by
  cases v with
  | null => exact absurd rfl h
  | prim => rfl
  | str s => rfl
  | arr l => rfl
  | obj fs => rfl

theorem extractOutputItem_ok (p : JsVal) (h : p ≠ .null) :
    ∃ s, extractOutputItem p = .ok s := by
  cases p with
  | null => exact absurd rfl h
  | str s => exact ⟨s, rfl⟩
  | prim => exact ⟨_, rfl⟩
  | arr l => exact ⟨_, rfl⟩
  | obj fs => exact ⟨_, rfl⟩

theorem mapOutputItems_ok (items : List JsVal) (h : JsVal.null ∉ items) :
    ∃ l, mapOutputItems items = .ok l := by
  induction items with
  | nil => exact ⟨[], rfl⟩
  | cons p rest ih =>
    obtain ⟨s, hs⟩ := extractOutputItem_ok p
      (fun he => h (by rw [he]; exact List.mem_cons_self _ _))
    obtain ⟨l, hl⟩ := ih (fun hm => h (List.mem_cons_of_mem p hm))
    refine ⟨s :: l, ?_⟩
    simp only [mapOutputItems, hs, hl]
    rfl

theorem extractChoices_ok (v : JsVal)
    (h : ∀ first rest, asArray (getField v keyChoices) = some (first :: rest) →
      first ≠ JsVal.null) :
    ∃ s, extractChoices v = .ok s := by
  unfold extractChoices
  cases hc : asArray (getField v keyChoices) with
  | none => exact ⟨[], rfl⟩
  | some l =>
    cases l with
    | nil => exact ⟨[], rfl⟩
    | cons first rest =>
      have hne := h first rest hc
      cases first with
      | null => exact absurd rfl hne
      | prim => exact ⟨_, rfl⟩
      | str s => exact ⟨_, rfl⟩
      | arr l => exact ⟨_, rfl⟩
      | obj fs => exact ⟨_, rfl⟩

/-- On every response without a `null`/`undefined` entry at the three
unguarded access points, the body of `extractText` returns normally. -/
theorem extractTextObj_ok (v : JsVal)
    (h1 : ∀ items, asArray (getField v keyOutput) = some items → JsVal.null ∉ items)
    (h2 : ∀ res0 rest, asArray (getField v keyResult) = some (res0 :: rest) →
      res0 ≠ JsVal.null)
    (h3 : ∀ first rest, asArray (getField v keyChoices) = some (first :: rest) →
      first ≠ JsVal.null) :
    ∃ s, extractTextObj v = .ok s := by
  unfold extractTextObj
  cases ht : asString (getField v keyText) with
  | some s => exact ⟨s, rfl⟩
  | none =>
    cases ho1 : asString (getField v keyOutputText) with
    | some s => exact ⟨s, rfl⟩
    | none =>
      cases ho2 : asString (getField v keyOutput) with
      | some s => exact ⟨s, rfl⟩
      | none =>
        cases ho3 : asArray (getField v keyOutput) with
        | some items =>
          obtain ⟨l, hl⟩ := mapOutputItems_ok items (h1 items ho3)
          refine ⟨List.intercalate ['\n'] (l.filter (fun s => s ≠ [])), ?_⟩
          simp [hl]
          rfl
        | none =>
          cases hr : asArray (getField v keyResult) with
          | none => exact extractChoices_ok v h3
          | some l =>
            cases l with
            | nil => exact extractChoices_ok v h3
            | cons res0 rest =>
              have hne := h2 res0 rest hr
              cases res0 with
              | null => exact absurd rfl hne
              | prim => exact extractChoices_ok v h3
              | str s => exact extractChoices_ok v h3
              | arr l => exact extractChoices_ok v h3
              | obj fs =>
                show ∃ s,
                  (match
                    match getField (JsVal.obj fs) keyContent with
                    | some cv => asString (getField cv keyText)
                    | none => none
                  with
                  | some s => Except.ok s
                  | none => extractChoices v) = Except.ok s
                cases hg : getField (JsVal.obj fs) keyContent with
                | none => exact extractChoices_ok v h3
                | some cv =>
                  show ∃ s,
                    (match asString (getField cv keyText) with
                    | some s => Except.ok s
                    | none => extractChoices v) = Except.ok s
                  cases hs : asString (getField cv keyText) with
                  | some s => exact ⟨s, rfl⟩
                  | none => exact extractChoices_ok v h3

/-- **C9 counterexample**: `extractText` is not total on arbitrary
responses — a `null` (or `undefined`) entry inside an `output`, `result`
or `choices` array makes the source read a property of `null`
(`pRec.content`, `res0.content`, `first.message`), which throws a
TypeError, refuting "total function ... never throws". -/
theorem claim_C9_counterexample :
    extractText (.obj [(keyOutput, .arr [.null])]) = .error () ∧
    extractText (.obj [(keyResult, .arr [.null])]) = .error () ∧
    extractText (.obj [(keyChoices, .arr [.null])]) = .error () ∧
    ¬ (∀ v : JsVal, ∃ s, extractText v = .ok s) := by
  refine ⟨rfl, rfl, rfl, ?_⟩
  intro hall
  obtain ⟨s, hs⟩ := hall (.obj [(keyOutput, .arr [JsVal.null])])
  rw [show extractText (.obj [(keyOutput, .arr [JsVal.null])]) = .error ()
    from rfl] at hs
  exact absurd hs (by simp)

/-- **C9 (amended)**: `extractText` always returns a string and follows
the decision order with first match winning — a string `text` field wins
over everything later, and the four concrete evaluations hold — and it
is total except that a `null`/`undefined` entry inside an `output`,
`result` or `choices` array throws a TypeError (which the route's outer
`try/catch` then converts to the generic failure response): on every
response without such an entry it returns normally. -/
theorem claim_C9_amended :
    (∀ v s, asString (getField v keyText) = some s → extractText v = .ok s) ∧
    extractText (.str "plain".data) = .ok ("plain".data) ∧
    extractText (.obj [(keyText, .str "hi".data)]) = .ok ("hi".data) ∧
    extractText (.obj [(keyChoices,
      .arr [.obj [(keyMessage, .obj [(keyContent, .str "c".data)])]])]) =
      .ok ("c".data) ∧
    extractText .null = .ok [] ∧
    (∀ v : JsVal,
      (∀ items, asArray (getField v keyOutput) = some items → JsVal.null ∉ items) →
      (∀ res0 rest, asArray (getField v keyResult) = some (res0 :: rest) →
        res0 ≠ JsVal.null) →
      (∀ first rest, asArray (getField v keyChoices) = some (first :: rest) →
        first ≠ JsVal.null) →
      ∃ s, extractText v = .ok s) := by
  refine ⟨?_, rfl, rfl, rfl, rfl, ?_⟩
  · intro v s h
    cases v with
    | null => simp [getField, asString] at h
    | prim => simp [getField, asString] at h
    | str s' => simp [getField, asString] at h
    | arr l => simp [getField, asString] at h
    | obj fs => simp [extractText, extractTextObj, h]
  · intro v h1 h2 h3
    cases v with
    | null => exact ⟨[], rfl⟩
    | str s => exact ⟨s, rfl⟩
    | prim => exact extractTextObj_ok _ h1 h2 h3
    | arr l => exact extractTextObj_ok _ h1 h2 h3
    | obj fs => exact extractTextObj_ok _ h1 h2 h3

/-- Witness for C9 (amended): the text-field priority applied at a
concrete input. -/
theorem claim_C9_witness :
    extractText (.obj [(keyText, .str "hello".data)]) = .ok ("hello".data) :=
  claim_C9_amended.1 _ _ rfl

/-- **C3**: on a response none of whose recognized top-level fields is
present, `extractText` returns the empty string (none of the throwing
access points is reachable there); in particular the nested-credential
object yields `""` and the secret `"X"` never appears in the output. -/
theorem claim_C3 :
    (∀ fs : List (Str × JsVal),
      getField (.obj fs) keyText = none →
      getField (.obj fs) keyOutputText = none →
      getField (.obj fs) keyOutput = none →
      getField (.obj fs) keyResult = none →
      getField (.obj fs) keyChoices = none →
      extractText (.obj fs) = .ok []) ∧
    extractText secretResp = .ok [] ∧
    (∀ s, extractText secretResp = .ok s → 'X' ∉ s) := by
  refine ⟨?_, rfl, ?_⟩
  · intro fs h1 h2 h3 h4 h5
    simp [extractText, extractTextObj, extractChoices,
      h1, h2, h3, h4, h5, asString, asArray]
  · intro s hs
    rw [show extractText secretResp = Except.ok ([] : Str) from rfl] at hs
    injection hs with h
    rw [← h]
    simp

/-- Witness for C3: the general empty-output lemma applied at a concrete
unrecognized-shape object. -/
theorem claim_C3_witness :
    extractText (.obj [("foo".data, .str "bar".data)]) = .ok [] :=
  claim_C3.1 _ rfl rfl rfl rfl rfl

/-- **C8**: `searchWeb` throws exactly on the empty query; every
non-empty query resolves normally, and resolves to `[]` when the
provider is unconfigured, on a non-success HTTP status, and on a
network/parsing failure. -/
theorem claim_C8 :
    (∀ cfg o topK q, searchWeb cfg o q topK = .error () ↔ q = []) ∧
    (∀ cfg o topK q, q ≠ [] → ∃ l, searchWeb cfg o q topK = .ok l) ∧
    (∀ cfg o topK q, q ≠ [] →
      (isFalsyEnv cfg.endpoint || isFalsyEnv cfg.key) = true →
      searchWeb cfg o q topK = .ok []) ∧
    (∀ cfg o topK q, q ≠ [] → o q = .notOk → searchWeb cfg o q topK = .ok []) ∧
    (∀ cfg o topK q, q ≠ [] → o q = .fail → searchWeb cfg o q topK = .ok []) := by
  have hok : ∀ (cfg : WebConfig) (o : Str → WebResp) (topK : Nat) (q : Str),
      q ≠ [] → ∃ l, searchWeb cfg o q topK = .ok l := by
    intro cfg o topK q hq
    simp only [searchWeb, if_neg hq]
    by_cases hf : (isFalsyEnv cfg.endpoint || isFalsyEnv cfg.key) = true
    · rw [if_pos hf]; exact ⟨[], rfl⟩
    · rw [if_neg hf]
      cases ho : o q with
      | fail => exact ⟨[], rfl⟩
      | notOk => exact ⟨[], rfl⟩
      | ok pages =>
        cases pages with
        | none => exact ⟨[], rfl⟩
        | some vals => exact ⟨buildWebResults (vals.take topK), rfl⟩
  refine ⟨?_, hok, ?_, ?_, ?_⟩
  · intro cfg o topK q
    constructor
    · intro h
      by_contra hq
      obtain ⟨l, hl⟩ := hok cfg o topK q hq
      rw [hl] at h
      exact absurd h (by simp)
    · intro hq
      simp [searchWeb, hq]
  · intro cfg o topK q hq hf
    simp only [searchWeb, if_neg hq]
    rw [if_pos hf]
  · intro cfg o topK q hq ho
    simp only [searchWeb, if_neg hq]
    by_cases hf : (isFalsyEnv cfg.endpoint || isFalsyEnv cfg.key) = true
    · rw [if_pos hf]
    · rw [if_neg hf, ho]
  · intro cfg o topK q hq ho
    simp only [searchWeb, if_neg hq]
    by_cases hf : (isFalsyEnv cfg.endpoint || isFalsyEnv cfg.key) = true
    · rw [if_pos hf]
    · rw [if_neg hf, ho]

/-- Witness for C8: both sides at concrete inputs — the empty query
rejects; a non-empty query against an unconfigured client resolves to
`[]`. -/
theorem claim_C8_witness :
    searchWeb {} (fun _ => .fail) [] 3 = .error () ∧
    searchWeb {} (fun _ => .fail) ("faith".data) 3 = .ok [] :=
  ⟨(claim_C8.1 {} (fun _ => .fail) 3 []).mpr rfl,
    claim_C8.2.2.1 {} (fun _ => .fail) 3 ("faith".data) (by decide) rfl⟩

/-- **C1**: the three-tier pipeline short-circuits: a non-empty vector
tier skips the full-text and web tiers; an empty/erroring vector tier
followed by a non-empty full-text tier skips the web tier; when both
yield nothing, the web tier's delivered result (empty on its own
failure) is the final value. -/
theorem claim_C1 :
    (∀ vect ft web, vectSnippets vect ≠ [] →
      retrieveRagContext vect ft web = ⟨vectSnippets vect, false, false⟩) ∧
    (∀ vect data web, vectSnippets vect = [] → ftSnippets data ≠ [] →
      retrieveRagContext vect (.ret data false) web = ⟨ftSnippets data, true, false⟩) ∧
    (∀ vect ft web, vectSnippets vect = [] → ftYieldsNothing ft →
      retrieveRagContext vect ft web = ⟨webResult web, true, true⟩) := by
  refine ⟨?_, ?_, ?_⟩
  · intro vect ft web h
    simp only [retrieveRagContext]
    rw [if_pos h]
  · intro vect data web h1 h2
    simp only [retrieveRagContext]
    rw [if_neg (by simp [h1])]
    simp only [Bool.false_eq_true, if_false]
    rw [if_pos h2]
  · intro vect ft web h1 h2
    simp only [retrieveRagContext]
    rw [if_neg (by simp [h1])]
    cases ft with
    | throw =>
      cases web <;> rfl
    | ret data error =>
      cases error with
      | true =>
        show webFallback true web = _
        cases web <;> rfl
      | false =>
        rcases h2 with herr | hsnip
        · exact absurd herr (by simp)
        · show (if ftSnippets data ≠ [] then
              RagTrace.mk (ftSnippets data) true false
            else webFallback true web) = _
          rw [if_neg (by simp [hsnip])]
          cases web <;> rfl

/-- Witness for C1: a vector tier with one snippet short-circuits at a
concrete input. -/
theorem claim_C1_witness :
    retrieveRagContext (.ret (some [.row (some ("doc one".data)) none]))
        (.ret (some [some ("ft row".data)]) false) (.ret ["web".data]) =
      ⟨["doc one".data], false, false⟩ :=
  claim_C1.1 _ _ _ (by decide)

/-- **C10**: `fetchVerse` never resolves to the empty string: an
empty-after-trim reference yields `null` with no external call; any
result is `null` or non-empty text; and the cache is either unchanged or
extended exactly with the non-empty text that was returned. -/
theorem claim_C10 :
    (∀ o c r s, (fetchVerse o c r).1 = some s → s ≠ []) ∧
    (∀ o c r, trimStr r = [] → fetchVerse o c r = (none, c, [])) ∧
    (∀ o c r, (fetchVerse o c r).2.1 = c ∨
      ∃ s, s ≠ [] ∧ (fetchVerse o c r).1 = some s ∧
        (fetchVerse o c r).2.1 = cacheSet c (trimStr r) s) := by
  refine ⟨?_, ?_, ?_⟩
  · intro o c r s h
    simp only [fetchVerse] at h
    split at h
    · simp at h
    · split at h
      · rename_i v hcg
        split at h
        · rw [netFetch_fst] at h
          exact netResult_ne_nil h
        · rename_i hv
          simp only [Option.some.injEq] at h
          exact h ▸ hv
      · rw [netFetch_fst] at h
        exact netResult_ne_nil h
  · intro o c r h
    simp [fetchVerse, h]
  · intro o c r
    simp only [fetchVerse]
    split
    · exact Or.inl rfl
    · split
      · rename_i v hcg
        split
        · rcases hnr : netResult o (trimStr r) with _ | s
          · left
            simp [netFetch_snd, hnr]
          · right
            exact ⟨s, netResult_ne_nil hnr,
              by simp [netFetch_fst, hnr], by simp [netFetch_snd, hnr]⟩
        · exact Or.inl rfl
      · rcases hnr : netResult o (trimStr r) with _ | s
        · left
          simp [netFetch_snd, hnr]
        · right
          exact ⟨s, netResult_ne_nil hnr,
            by simp [netFetch_fst, hnr], by simp [netFetch_snd, hnr]⟩

/-- Witness for C10: the empty-trim clause at a whitespace reference. -/
theorem claim_C10_witness :
    fetchVerse oracleConst [] ("  ".data) = (none, [], []) :=
  claim_C10.2.1 oracleConst [] ("  ".data) (by decide)

/-- **C6**: every range-shaped input with inverted endpoints, and every
input matching neither range regex (bare chapter or book), degrades to a
single-entry map keyed by the trimmed input, valued by the single-verse
fetcher, with no exception. -/
theorem claim_C6 (o : Oracle) (c : Cache) (range : Str)
    (hrange : range ≠ [])
    (h : (matchSameChapter (trimStr range) = none ∧
        matchCrossChapter (trimStr range) = none) ∨
      (∃ b ch v1 v2, matchSameChapter (trimStr range) = some (b, ch, v1, v2) ∧
        v1 > v2) ∨
      (matchSameChapter (trimStr range) = none ∧
        ∃ b c1 w1 c2 w2,
          matchCrossChapter (trimStr range) = some (b, c1, w1, c2, w2) ∧
          (c1 > c2 ∨ (c1 = c2 ∧ w1 > w2)))) :
    fetchRange o c range = .ok
      ([(trimStr range, (fetchVerse o c (trimStr range)).1)],
        (fetchVerse o c (trimStr range)).2.1,
        (fetchVerse o c (trimStr range)).2.2) := by
  simp only [fetchRange]
  rw [if_neg hrange]
  rcases h with ⟨hs, hc⟩ | ⟨b, ch, v1, v2, hs, hinv⟩ | ⟨hs, b, c1, w1, c2, w2, hc, hinv⟩
  · simp only [hs, hc]
  · simp only [hs]
    rw [if_pos hinv]
  · simp only [hs, hc]
    rw [if_pos (by tauto)]

/-- Witness for C6: an inverted same-chapter range at a concrete input. -/
theorem claim_C6_witness :
    fetchRange oracleNotOk [] ("John 3:5-2".data) = .ok
      ([(trimStr ("John 3:5-2".data),
          (fetchVerse oracleNotOk [] (trimStr ("John 3:5-2".data))).1)],
        (fetchVerse oracleNotOk [] (trimStr ("John 3:5-2".data))).2.1,
        (fetchVerse oracleNotOk [] (trimStr ("John 3:5-2".data))).2.2) :=
  claim_C6 oracleNotOk [] ("John 3:5-2".data) (by decide)
    (Or.inr (Or.inl ⟨"John".data, 3, 5, 2, by decide, by decide⟩))

theorem normalized_list_ok (refs : List Str) :
    ∀ r ∈ (refs.map trimStr).filter (fun s => !s.isEmpty),
      trimStr r = r ∧ r ≠ [] := by
  intro r hr
  simp only [List.mem_filter, List.mem_map] at hr
  obtain ⟨⟨x, _, hx⟩, hne⟩ := hr
  exact ⟨by rw [← hx]; exact trimStr_idem x, by simpa using hne⟩

theorem foldl_mapSet_keys_nodup (f : Str → Option Str) :
    ∀ (list : List Str) (m : RMap), (m.map Prod.fst).Nodup →
      ((list.foldl (fun acc r => mapSet acc r (f r)) m).map Prod.fst).Nodup := by
  intro list
  induction list with
  | nil => intro m h; exact h
  | cons r rest ih => intro m h; exact ih _ (mapSet_keys_nodup m r (f r) h)

/-- **C7 counterexample**: two identical uncached references inside one
`fetchVerses` batch each issue their own external call — every callback
checks the cache during the synchronous phase, before any response has
been delivered — so two calls for the one normalized reference are
issued, refuting "at most one external verse-lookup call is ever
issued for it ... without duplicate external calls". -/
theorem claim_C7_counterexample :
    (fetchVerses oracleConst [] ["John 3:16".data, "John 3:16".data]).2.2 =
      ["John 3:16".data, "John 3:16".data] ∧
    ¬ ((fetchVerses oracleConst []
        ["John 3:16".data, "John 3:16".data]).2.2.count ("John 3:16".data) ≤ 1) := by
  constructor
  · rfl
  · decide

/-- **C7 (amended)**: sequentially, a repeated `fetchVerse` after a
successful fetch returns the cached value with no further external call;
within one batch the external calls are exactly the normalized inputs
that miss the batch-start cache — duplicates included, a benign race —
and the final mapping still has a single entry per normalized
reference. -/
theorem claim_C7_amended :
    (∀ o c r s c' calls, fetchVerse o c r = (some s, c', calls) →
      fetchVerse o c' r = (some s, c', [])) ∧
    (∀ o c refs, (fetchVerses o c refs).2.2 =
      ((refs.map trimStr).filter (fun s => !s.isEmpty)).filter
        (fun n => (batchHit c n).isNone)) ∧
    (∀ o c refs, (((fetchVerses o c refs).1).map Prod.fst).Nodup) := by
  refine ⟨fun o c r s c' calls h => fetchVerse_repeat h, ?_, ?_⟩
  · intro o c refs
    unfold fetchVerses
    rw [fetchVersesGo_calls o c _ (normalized_list_ok refs)]
    exact List.nil_append _
  · intro o c refs
    unfold fetchVerses
    rw [fetchVersesGo_map o c _ (normalized_list_ok refs)]
    exact foldl_mapSet_keys_nodup _ _ [] (by simp)

/-- Witness for C7 (amended): a second fetch of an already fetched
reference is answered from the cache with no external call. -/
theorem claim_C7_witness :
    fetchVerse oracleConst
      [("John 3:16".data, "For God so loved the world".data)]
      ("John 3:16".data) =
      (some ("For God so loved the world".data),
        [("John 3:16".data, "For God so loved the world".data)], []) :=
  claim_C7_amended.1 oracleConst [] ("John 3:16".data)
    ("For God so loved the world".data)
    [("John 3:16".data, "For God so loved the world".data)]
    ["John 3:16".data] (by decide)

/-- The verse entry of the C4 scenario. -/
def c4Entry : Str × Str :=
  ("John 3:16".data, "For God so loved the world".data)

/-- **C4 counterexample**: with no prior history, one expanded verse
reference and no context snippets, the assembled history *begins* with
the verse message (`unshift` puts it before everything), and the
preamble pair follows — not the claimed preamble-first order. -/
theorem claim_C4_counterexample :
    assembleMessages [] ("Explain John 3:16".data) [] (.ret []) [c4Entry] =
      [verseMessage c4Entry, ⟨.user, SYSTEM_PROMPT⟩, ⟨.model, PREAMBLE_ACK⟩,
        ⟨.user, "Explain John 3:16".data⟩] ∧
    [verseMessage c4Entry, ⟨.user, SYSTEM_PROMPT⟩, ⟨.model, PREAMBLE_ACK⟩,
        ⟨.user, "Explain John 3:16".data⟩] ≠
      [⟨.user, SYSTEM_PROMPT⟩, ⟨.model, PREAMBLE_ACK⟩, verseMessage c4Entry,
        ⟨.user, "Explain John 3:16".data⟩] := by
  constructor
  · rfl
  · intro h
    have h1 := (List.cons.inj h).1
    have hp := congrArg ChatMsg.parts h1
    simp [verseMessage, c4Entry, SYSTEM_PROMPT] at hp

/-- **C4 (amended)**: the assembled history is strictly ordered as: the
expanded verse-reference messages first, then the fixed preamble pair
(present exactly when there is no prior history) or the collapsed prior
turns, then the context snippets, then the current question as the final
message with content equal to the question string; the ordering is a
deterministic function of the inputs. -/
theorem claim_C4_amended :
    ∀ contents question rag web entries,
      assembleMessages contents question rag web entries =
        entries.map verseMessage ++ baseHistory contents ++
          contextBlock rag web ++ [⟨.user, question⟩] ∧
      (assembleMessages contents question rag web entries).getLast? =
        some ⟨.user, question⟩ ∧
      (contents = [] →
        baseHistory contents = [⟨.user, SYSTEM_PROMPT⟩, ⟨.model, PREAMBLE_ACK⟩]) ∧
      (contents ≠ [] →
        baseHistory contents =
          contents.map (fun m => ⟨collapseRole m.role, m.content⟩)) := by
  intro contents question rag web entries
  have h1 : assembleMessages contents question rag web entries =
      entries.map verseMessage ++ baseHistory contents ++
        contextBlock rag web ++ [⟨.user, question⟩] := by
    simp only [assembleMessages]
    by_cases he : entries = []
    · subst he
      simp
    · rw [if_pos he]
      simp [List.append_assoc]
  refine ⟨h1, ?_, ?_, ?_⟩
  · rw [h1]
    exact List.getLast?_concat _
  · intro h; simp [baseHistory, h]
  · intro h; simp [baseHistory, h]

/-- Witness for C4 (amended): the fresh-conversation branch evaluated at
a concrete question. -/
theorem claim_C4_witness :
    assembleMessages [] ("Q".data) [] (.ret []) [] =
      [⟨.user, SYSTEM_PROMPT⟩, ⟨.model, PREAMBLE_ACK⟩, ⟨.user, "Q".data⟩] := by
  have h := claim_C4_amended [] ("Q".data) [] (.ret []) []
  rw [h.1, h.2.2.1 rfl]
  rfl

/-- **C5**: a same-chapter range expands to exactly the individual
verses `C:V1 .. C:V2` in ascending order, fetched through the
multi-verse fetcher, with one external call per verse except for cache
hits. -/
theorem claim_C5 (o : Oracle) (c : Cache) (range : Str)
    {book : Str} {chapter vstart vend : Nat}
    (hrange : range ≠ [])
    (hmatch : matchSameChapter (trimStr range) = some (book, chapter, vstart, vend))
    (hle : vstart ≤ vend) :
    ∃ m cc calls, fetchRange o c range = .ok (m, cc, calls) ∧
      m.map Prod.fst = sameExpansion book chapter vstart vend ∧
      m = (sameExpansion book chapter vstart vend).map
        (fun r => (r, batchVal o c r)) ∧
      calls = (sameExpansion book chapter vstart vend).filter
        (fun n => (batchHit c n).isNone) := by
  obtain ⟨cc, hcc⟩ := fetchRange_same_spec o c range hrange hmatch hle
  refine ⟨_, cc, _, hcc, ?_, rfl, rfl⟩
  rw [List.map_map]
  show List.map (fun r => r) _ = _
  exact List.map_id' _

/-- Witness for C5: `John 3:16-18` expands to 16, 17, 18. -/
theorem claim_C5_witness :
    ∃ m cc calls,
      fetchRange oracleConst [] ("John 3:16-18".data) = .ok (m, cc, calls) ∧
      m.map Prod.fst = sameExpansion ("John".data) 3 16 18 ∧
      m = (sameExpansion ("John".data) 3 16 18).map
        (fun r => (r, batchVal oracleConst [] r)) ∧
      calls = (sameExpansion ("John".data) 3 16 18).filter
        (fun n => (batchHit [] n).isNone) :=
  @claim_C5 oracleConst [] ("John 3:16-18".data) ("John".data) 3 16 18
    (by decide) (by decide) (by decide)

/-- **C2 counterexample**: `John 3:1-3:2` is a cross-chapter-shaped
range with C1 = C2 = 3 and V1 = 1 ≤ V2 = 2 (so inside the claim's
scope), yet with chapter length 3 the returned map's keys are
`John 3:1, John 3:2, John 3:3` — the last key is `John 3:3`, not the
claimed `"Book C2:V2" = John 3:2`. -/
theorem claim_C2_counterexample :
    ((fetchRange oracleConst [] ("John 3:1-3:2".data)).toOption.map
        (fun p => p.1.map Prod.fst)) =
      some ["John 3:1".data, "John 3:2".data, "John 3:3".data] ∧
    ((fetchRange oracleConst [] ("John 3:1-3:2".data)).toOption.map
        (fun p => (p.1.map Prod.fst).getLast?)) =
      some (some ("John 3:3".data)) ∧
    some ("John 3:3".data) ≠ some ("John 3:2".data) := by
  refine ⟨by decide, by decide, by decide⟩

/-- **C2 (amended)**: for a cross-chapter range with C1 < C2 the
returned map's keys are exactly the expansion
{C1:V1..lastVerse(C1)} ++ {all verses of each chapter strictly between}
++ {C2:1..C2:V2} (chapter lengths as reported by the chapter-length
lookup), in that order; the first key is `Book C1:V1` provided
V1 ≤ lastVerse(C1), and the last key is `Book C2:V2` provided V2 ≥ 1.
(For C1 = C2 the expansion overlaps itself and the last key is in
general not `Book C2:V2` — see the counterexample.) -/
theorem claim_C2_amended (o : Oracle) (c : Cache) (range : Str)
    {book : Str} {ch1 v1 ch2 v2 : Nat}
    (hrange : range ≠ [])
    (hmatch : matchCrossChapter (trimStr range) = some (book, ch1, v1, ch2, v2))
    (h12 : ch1 < ch2) :
    ∃ m cc calls, fetchRange o c range = .ok (m, cc, calls) ∧
      m.map Prod.fst = crossExpansion o c book ch1 v1 ch2 v2 ∧
      (∀ L1, (getChapterLength o c book ch1).1 = some L1 → v1 ≤ L1 →
        (m.map Prod.fst).head? = some (mkRef book ch1 v1)) ∧
      (1 ≤ v2 → (m.map Prod.fst).getLast? = some (mkRef book ch2 v2)) := by
  obtain ⟨startC, cc, hok⟩ := fetchRange_cross_spec o c range hrange hmatch h12
  have hkeys : (((crossExpansion o c book ch1 v1 ch2 v2).map
      (fun r => (r, batchVal o startC r))).map Prod.fst) =
      crossExpansion o c book ch1 v1 ch2 v2 := by
    rw [List.map_map]
    show List.map (fun r => r) _ = _
    exact List.map_id' _
  refine ⟨_, cc, _, hok, hkeys, ?_, ?_⟩
  · intro L1 hL1 hv1
    rw [hkeys]
    unfold crossExpansion
    rw [hL1]
    show ((verseRun book ch1 v1 (some L1) ++ _) ++ _).head? = _
    rw [show verseRun book ch1 v1 (some L1) =
      (List.range' v1 (L1 + 1 - v1)).map (mkRef book ch1) from rfl]
    rw [show L1 + 1 - v1 = (L1 - v1) + 1 by omega, List.range'_succ]
    simp
  · intro hv2
    rw [hkeys]
    unfold crossExpansion
    have hsplit : List.range' 1 v2 = List.range' 1 (v2 - 1) ++ [v2] := by
      conv_lhs => rw [show v2 = (v2 - 1) + 1 by omega]
      rw [List.range'_1_concat]
      congr 1
      simp
      omega
    rw [hsplit, List.map_append]
    rw [show (List.map (mkRef book ch2) [v2]) = [mkRef book ch2 v2] from rfl]
    rw [← List.append_assoc]
    exact List.getLast?_concat _

/-- Witness for C2 (amended): `John 3:2-4:2` with every chapter three
verses long — keys run `3:2, 3:3, 4:1, 4:2`, with the claimed first and
last keys. -/
theorem claim_C2_witness :
    ∃ m cc calls,
      fetchRange oracleConst [] ("John 3:2-4:2".data) = .ok (m, cc, calls) ∧
      (m.map Prod.fst).head? = some (mkRef ("John".data) 3 2) ∧
      (m.map Prod.fst).getLast? = some (mkRef ("John".data) 4 2) := by
  obtain ⟨m, cc, calls, hok, hkeys, hhead, hlast⟩ :=
    @claim_C2_amended oracleConst [] ("John 3:2-4:2".data) ("John".data) 3 2 4 2
      (by decide) (by decide) (by decide)
  exact ⟨m, cc, calls, hok, hhead 3 (by decide) (by decide), hlast (by decide)⟩

end BibleApp
